import Mathlib

/-!
Verification development for the `mitch` PostgreSQL schema migrator.

This file gives a shallow embedding, in Lean 4, of the migration engine of
the `mitch` repository:

* composite identifiers and their parser (`src/mitch/utils.py`),
* migrations, applications and content-hash matching (`src/mitch/migration.py`),
* the repository dependency graph with its deterministic topological
  traversals `dependencies_of` / `dependants_of` (`src/mitch/repository.py`),
* the PostgreSQL target's metadata-state operations `up`, `down`,
  `fix_hashes_and_status`, `installed_migrations`, `modified_migrations`,
  `prune` (`src/mitch/target.py`),
* the command orchestrators `up` and `rerun-modified`
  (`src/mitch/cli/commands/up.py`, `src/mitch/cli/commands/rerun_modified.py`),
* repository discovery by ancestor search (`src/mitch/repository.py`,
  `Repository.from_closest_parent`),
* migration-descriptor parsing (`Migration.from_config`) and the
  class-definition-time default of `MigrationApplication.applied_at`.

Modelling conventions:

* Python `datetime` values are modelled as `Nat` (`datetime.min` is `0`);
  Python `None` becomes `Option.none`.
* SHA-256 digests are opaque `String`s: the hash function itself lives in the
  external `hashlib` library, so a migration carries its two (lazily computed)
  digests as plain fields.
* Database state is the contents of `mitch.applied_migrations`, modelled as a
  list of rows; SQL side effects of up/down scripts are outside the metadata
  state (they do not feed back into any of the modelled decisions).
* Python's `graphlib.TopologicalSorter` is modelled by a batched Kahn
  algorithm: each round emits the set of nodes all of whose predecessors have
  already been emitted, sorted by the deterministic sort key.
* `Migration.recursive_dependencies` recurses through the dependency edges
  with no cycle guard; on a cyclic graph Python aborts with `RecursionError`
  before anything is yielded.  This is modelled by a fuel-bounded recursion
  whose fuel (`migrations.length + 1`) is enough for every acyclic graph and
  which returns `none` whenever a cycle is reachable.
-/

/-- Composite identifier: ordered pair of repository id and migration id,
    from `CompositeId` in `src/mitch/utils.py`. -/
structure CompositeId where
  repository_id : String
  migration_id : String
deriving DecidableEq, Repr

/-- Test whether `sep` is a prefix of `s` (character lists). -/
def startsWithSep : List Char → List Char → Bool
  | [], _ => true
  | _ :: _, [] => false
  | c :: cs, d :: ds => c = d && startsWithSep cs ds

/-- Split a character list at the first occurrence of `sep`,
    as Python's `string.split(sep, 1)` does when `sep` occurs;
    `none` when `sep` does not occur. -/
def splitOnFirst (sep : List Char) : List Char → Option (List Char × List Char)
  | [] => if startsWithSep sep [] then some ([], []) else none
  | c :: rest =>
    if startsWithSep sep (c :: rest) then some ([], (c :: rest).drop sep.length)
    else
      match splitOnFirst sep rest with
      | some p => some (c :: p.1, p.2)
      | none => none

/-- The `::` separator of composite ids. -/
def compositeSep : List Char := [':', ':']

/-- Parser for composite ids, from `CompositeId.from_string` in
    `src/mitch/utils.py`.  `pfx` models the optional `prefix` argument;
    Python tests the prefix for truthiness, so an empty prefix string
    behaves like no prefix. -/
def CompositeId.from_string (s : String) (pfx : Option String) : Except String CompositeId :=
  match splitOnFirst compositeSep s.toList with
  | some (a, b) => .ok ⟨String.mk a, String.mk b⟩
  | none =>
    match pfx with
    | some p => if p = "" then .error ("Invalid composite id: " ++ s) else .ok ⟨p, s⟩
    | none => .error ("Invalid composite id: " ++ s)

/-- Migration entity, from the `Migration` dataclass in
    `src/mitch/migration.py`.  The two SHA-256 digests stand for the lazily
    computed `up_script_sha256` and `reformatted_up_script_sha256`
    cached properties (the hash function is external). -/
structure Migration where
  repository_name : String
  migration_id : String
  author : Option String := none
  created_at : Option Nat := none
  dependencies : List String := []
  idempotent : Bool := false
  transactional : Bool := true
  up_script_sha256 : String := ""
  reformatted_up_script_sha256 : String := ""
deriving DecidableEq, Repr

/-- Composite id of a migration (`Migration.id`). -/
def Migration.id (m : Migration) : CompositeId :=
  ⟨m.repository_name, m.migration_id⟩

/-- Deterministic sort key, from `Migration.sort_key`:
    `(created_at or datetime.min, repository.name, migration_id)`. -/
def Migration.sort_key (m : Migration) : Nat × String × String :=
  (m.created_at.getD 0, m.repository_name, m.migration_id)

/-- Three-way comparison of naturals. -/
def cmpNat (a b : Nat) : Ordering :=
  if a < b then .lt else if b < a then .gt else .eq

/-- Lexicographic three-way comparison of character lists by code point,
    matching Python string comparison. -/
def cmpCharList : List Char → List Char → Ordering
  | [], [] => .eq
  | [], _ :: _ => .lt
  | _ :: _, [] => .gt
  | a :: as, b :: bs =>
    match cmpNat a.toNat b.toNat with
    | .eq => cmpCharList as bs
    | o => o

/-- Three-way comparison of strings. -/
def cmpString (a b : String) : Ordering :=
  cmpCharList a.toList b.toList

/-- Lexicographic three-way comparison of sort keys, matching Python tuple
    comparison on `(datetime, str, str)`. -/
def cmpKey (k l : Nat × String × String) : Ordering :=
  match cmpNat k.1 l.1 with
  | .eq =>
    match cmpString k.2.1 l.2.1 with
    | .eq => cmpString k.2.2 l.2.2
    | o => o
  | o => o

/-- Ascending comparison of migrations by sort key (`sorted(...)`). -/
def keyLE (a b : Migration) : Bool :=
  decide (cmpKey a.sort_key b.sort_key ≠ Ordering.gt)

/-- Descending comparison of migrations by sort key
    (`sorted(..., reverse=True)`). -/
def keyGE (a b : Migration) : Bool :=
  keyLE b a

/-- Application record: a row of `mitch.applied_migrations`, from the
    `MigrationApplication` dataclass in `src/mitch/migration.py`. -/
structure MigrationApplication where
  repository_id : String
  migration_id : String
  up_script_sha256 : String
  reformatted_up_script_sha256 : Option String := none
  is_dependency : Bool := false
  applied_at : Nat := 0
  applied_by : String := "current_user"
deriving DecidableEq, Repr

/-- Composite id of an application record (`MigrationApplication.id`). -/
def MigrationApplication.id (a : MigrationApplication) : CompositeId :=
  ⟨a.repository_id, a.migration_id⟩

/-- Hash matching, from `MigrationApplication.matches`: the stored raw hash
    equals the migration's raw hash, or the stored canonical hash equals the
    migration's canonical hash (a `NULL` stored canonical hash matches
    nothing, as in Python where `None == str` is false). -/
def MigrationApplication.matches (a : MigrationApplication) (m : Migration) : Bool :=
  a.up_script_sha256 == m.up_script_sha256 ||
    a.reformatted_up_script_sha256 == some m.reformatted_up_script_sha256

/-- Dependency graph of the loaded repository closure: the finite list of
    migrations with resolved forward (`deps`) and reverse (`dependants`)
    edges, mirroring `resolved_dependencies` / `resolved_dependants`. -/
structure RepoGraph where
  migrations : List Migration
  deps : Migration → List Migration
  dependants : Migration → List Migration

/-- Forward dependency edge: `b` is a resolved dependency of `a`. -/
def depEdge (g : RepoGraph) (a b : Migration) : Prop :=
  b ∈ g.deps a

/-- Reverse edge: `b` is a resolved dependant of `a`. -/
def dependantEdge (g : RepoGraph) (a b : Migration) : Prop :=
  b ∈ g.dependants a

/-- Forward edges stay inside the loaded migration list. -/
def DepsClosed (g : RepoGraph) : Prop :=
  ∀ m ∈ g.migrations, ∀ d ∈ g.deps m, d ∈ g.migrations

/-- Reverse edges stay inside the loaded migration list. -/
def DependantsClosed (g : RepoGraph) : Prop :=
  ∀ m ∈ g.migrations, ∀ d ∈ g.dependants m, d ∈ g.migrations

/-- The reverse edges are exactly the reversal of the forward edges, as
    established by `Repository._connect_dependencies`. -/
def EdgesSymmetric (g : RepoGraph) : Prop :=
  ∀ a ∈ g.migrations, ∀ b ∈ g.migrations, (b ∈ g.deps a ↔ a ∈ g.dependants b)

/-- Acyclicity witness: a numbering under which every resolved dependency of
    a loaded migration ranks strictly lower than the migration itself. -/
def RankedAcyclic (g : RepoGraph) (rank : Migration → Int) : Prop :=
  ∀ m ∈ g.migrations, ∀ d ∈ g.deps m, rank d < rank m

/-- Composite ids are unique across the loaded closure, as enforced by
    `Repository._load_migrations`. -/
def IdsInjective (g : RepoGraph) : Prop :=
  ∀ a ∈ g.migrations, ∀ b ∈ g.migrations, a.id = b.id → a = b

/-- The loaded migration list has no duplicates. -/
def NodupMigrations (g : RepoGraph) : Prop :=
  g.migrations.Nodup

/-- One expansion step of `Migration.recursive_dependencies`: combine the
    recursive closures of the direct neighbors, failing if any fails. -/
def recDepsStep (f : Migration → Option (List Migration)) :
    List Migration → Option (List Migration)
  | [] => some []
  | d :: rest =>
    match f d, recDepsStep f rest with
    | some rd, some r2 => some (d :: (rd ++ r2))
    | _, _ => none

/-- Fuel-bounded model of `Migration.recursive_dependencies` (and, with the
    reverse edges, of `recursive_dependants`): all migrations reachable from
    `m` in at least one step.  Python recurses with no cycle guard and dies
    with `RecursionError` on any reachable cycle; running out of fuel models
    that failure. -/
def recDeps (preds : Migration → List Migration) : Nat → Migration → Option (List Migration)
  | 0, _ => none
  | fuel + 1, m => recDepsStep (recDeps preds fuel) (preds m)

/-- Recursive closures of a whole selection, failing if any member fails. -/
def closureMany (f : Migration → Option (List Migration)) :
    List Migration → Option (List Migration)
  | [] => some []
  | m :: ms =>
    match f m, closureMany f ms with
    | some cl, some rest => some (cl ++ rest)
    | _, _ => none

/-- Node set handed to the topological sorter by `dependencies_of` /
    `dependants_of`: the selection plus the recursive closure of each
    selected migration. -/
def sorterNodes (preds : Migration → List Migration) (fuel : Nat)
    (S : List Migration) : Option (List Migration) :=
  (closureMany (recDeps preds fuel) S).map (fun cls => (S ++ cls).dedup)

/-- Ready frontier of one Kahn round (`TopologicalSorter.get_ready`): the
    remaining nodes all of whose predecessors were already emitted, i.e. are
    no longer remaining. -/
def kahnReady (preds : Migration → List Migration) (remaining : List Migration) :
    List Migration :=
  remaining.filter (fun m => (preds m).all (fun p => !(decide (p ∈ remaining))))

/-- Deterministic ordering of one emitted frontier (Python's stable
    `sorted`). -/
def sortBatch (le : Migration → Migration → Bool) (l : List Migration) :
    List Migration :=
  List.insertionSort (fun a b => le a b = true) l

/-- Batched Kahn topological sort, modelling `graphlib.TopologicalSorter` as
    driven by `dependencies_of` / `dependants_of`: in each round emit every
    remaining node all of whose predecessors were already emitted, sorted by
    `le`; report failure (Python raises before yielding) if no node is
    ready. -/
def kahnBatches (preds : Migration → List Migration) (le : Migration → Migration → Bool) :
    Nat → List Migration → Option (List (List Migration))
  | 0, remaining => if remaining.isEmpty then some [] else none
  | fuel + 1, remaining =>
    if remaining.isEmpty then some []
    else
      if (kahnReady preds remaining).isEmpty then none
      else
        match kahnBatches preds le fuel
            (remaining.filter (fun m => !(decide (m ∈ kahnReady preds remaining)))) with
        | some bs => some (sortBatch le (kahnReady preds remaining) :: bs)
        | none => none

/-- Topological expansion of a selection over forward edges, from
    `Repository.dependencies_of`: dependencies come before their dependants,
    ties sorted ascending by sort key. -/
def dependenciesOf (g : RepoGraph) (S : List Migration) : Except String (List Migration) :=
  match sorterNodes g.deps (g.migrations.length + 1) S with
  | none => .error "RecursionError: cycle while collecting recursive dependencies"
  | some nodes =>
    match kahnBatches g.deps keyLE nodes.length nodes with
    | none => .error "CycleError: nodes are in a cycle"
    | some bs => .ok bs.flatten

/-- Topological expansion of a selection over reverse edges, from
    `Repository.dependants_of`: dependants come before their dependencies,
    ties sorted descending by sort key. -/
def dependantsOf (g : RepoGraph) (S : List Migration) : Except String (List Migration) :=
  match sorterNodes g.dependants (g.migrations.length + 1) S with
  | none => .error "RecursionError: cycle while collecting recursive dependants"
  | some nodes =>
    match kahnBatches g.dependants keyGE nodes.length nodes with
    | none => .error "CycleError: nodes are in a cycle"
    | some bs => .ok bs.flatten

/-- Metadata state of a target: the rows of `mitch.applied_migrations`. -/
abbrev TargetState := List MigrationApplication

/-- Lookup of the application record for a composite id, modelling
    `PostgreSqlTarget.applications.get(id)`. -/
def lookupApplication (st : TargetState) (id : CompositeId) : Option MigrationApplication :=
  st.find? (fun a => decide (a.id = id))

/-- Upsert into `mitch.applied_migrations`, modelling the
    `insert ... on conflict (repository_id, migration_id) do update` issued
    by `PostgreSqlTarget.up`: replace the row with the same key if present,
    otherwise add the new row. -/
def upsertApplication (st : TargetState) (row : MigrationApplication) : TargetState :=
  if st.any (fun a => decide (a.id = row.id)) then
    st.map (fun a => if a.id = row.id then row else a)
  else st ++ [row]

/-- Metadata effect of `PostgreSqlTarget.up` for one migration: upsert its
    row with both hashes, the requested dependency flag, and the refreshed
    `applied_at` / `applied_by` defaults. -/
def targetUpApply (st : TargetState) (m : Migration) (asDep : Bool)
    (now : Nat) (user : String) : TargetState :=
  upsertApplication st
    { repository_id := m.repository_name
      migration_id := m.migration_id
      up_script_sha256 := m.up_script_sha256
      reformatted_up_script_sha256 := some m.reformatted_up_script_sha256
      is_dependency := asDep
      applied_at := now
      applied_by := user }

/-- Metadata effect of `PostgreSqlTarget.down` for one migration: delete its
    row by composite key. -/
def targetDownApply (st : TargetState) (m : Migration) : TargetState :=
  st.filter (fun a => !(decide (a.id = m.id)))

/-- Metadata effect of `PostgreSqlTarget.fix_hashes_and_status`: replace the
    stored hashes and dependency flag of the matching row, guarded by the
    `is distinct from` clause (rows already carrying the new values are left
    untouched, which yields the same contents either way). -/
def fixHashesAndStatus (st : TargetState) (m : Migration) (isDep : Bool) : TargetState :=
  st.map (fun a =>
    if a.id = m.id ∧
        (a.up_script_sha256 ≠ m.up_script_sha256 ∨
          a.reformatted_up_script_sha256 ≠ some m.reformatted_up_script_sha256 ∨
          a.is_dependency ≠ isDep) then
      { a with
          up_script_sha256 := m.up_script_sha256
          reformatted_up_script_sha256 := some m.reformatted_up_script_sha256
          is_dependency := isDep }
    else a)

/-- Join application records back to on-disk migrations, modelling
    `Repository.with_migrations`: each row is paired with the migration of
    the same composite id when one exists in the loaded closure. -/
def withMigrations (g : RepoGraph) (st : TargetState) :
    List (MigrationApplication × Option Migration) :=
  st.map (fun a => (a, g.migrations.find? (fun m => decide (m.id = a.id))))

/-- Migrations present on disk and recorded as applied, from
    `PostgreSqlTarget.installed_migrations`; dependency-applied rows are
    included only when `includeDeps` is set. -/
def installedMigrations (g : RepoGraph) (st : TargetState) (includeDeps : Bool) :
    List Migration :=
  (withMigrations g st).filterMap (fun p =>
    match p.2 with
    | some m => if !p.1.is_dependency || includeDeps then some m else none
    | none => none)

/-- Migrations present on disk whose stored hashes no longer match, from
    `PostgreSqlTarget.modified_migrations`. -/
def modifiedMigrations (g : RepoGraph) (st : TargetState) : List Migration :=
  (withMigrations g st).filterMap (fun p =>
    match p.2 with
    | some m => if !(p.1.matches m) then some m else none
    | none => none)

/-- Dangling set computed by `PostgreSqlTarget.prune`:
    everything installed (dependencies included) minus the needed set, where
    the needed set is the explicit `except_migrations` when non-empty and
    otherwise the installed non-dependency migrations. -/
def danglingMigrations (g : RepoGraph) (st : TargetState)
    (exceptMs : List Migration) : List Migration :=
  let installed := installedMigrations g st true
  let needed := if exceptMs.length > 0 then exceptMs
                else installedMigrations g st false
  installed.filter (fun m => !(decide (m ∈ needed)))

/-- Metadata effect of `PostgreSqlTarget.prune`: revert the dangling set in
    reverse `dependencies_of` order (dependants first). -/
def prune (g : RepoGraph) (st : TargetState) (exceptMs : List Migration) :
    Except String TargetState :=
  let dangling := danglingMigrations g st exceptMs
  match dependenciesOf g dangling with
  | .error e => .error e
  | .ok order =>
    .ok (((order.filter (fun m => decide (m ∈ dangling))).reverse).foldl
      targetDownApply st)

/-- Dependency flag the `up` loop stores for plan element `m`:
    `is_explicit` is true when `m` was chosen or its prior application was
    not recorded as a dependency, except that `--as-dependency` forces
    chosen migrations to be dependencies; `is_dependency` is its negation
    (`up_migration` in `src/mitch/cli/commands/up.py`). -/
def upIsDependency (st0 : TargetState) (chosen : List Migration) (asDep : Bool)
    (m : Migration) : Bool :=
  let a := lookupApplication st0 m.id
  let isExplicit0 := decide (m ∈ chosen)
  let isExplicit1 :=
    match a with
    | some a0 => isExplicit0 || !a0.is_dependency
    | none => isExplicit0
  let isExplicit := if asDep && decide (m ∈ chosen) then false else isExplicit1
  !isExplicit

/-- One step of the `up` command loop (`up_migration` in
    `src/mitch/cli/commands/up.py`) for plan element `m`.  `st0` is the
    application snapshot materialized before the loop, `st` the running
    state; `confirm` models the operator's answer to the idempotent re-apply
    prompt. -/
def upStep (st0 : TargetState) (chosen : List Migration) (asDep : Bool)
    (confirm : Migration → Bool) (now : Nat) (user : String)
    (st : TargetState) (m : Migration) : Except String TargetState :=
  match lookupApplication st0 m.id with
  | none => .ok (targetUpApply st m (upIsDependency st0 chosen asDep m) now user)
  | some a0 =>
    if a0.matches m then
      .ok (fixHashesAndStatus st m (upIsDependency st0 chosen asDep m))
    else if m.idempotent then
      if confirm m then
        .ok (targetUpApply st m (upIsDependency st0 chosen asDep m) now user)
      else .error "declined re-apply of idempotent migration"
    else .error "applied with a different script"

/-- The `up` command over a chosen set: expand via `dependencies_of` and run
    the per-migration loop inside one transaction. -/
def upCommand (g : RepoGraph) (st : TargetState) (chosen : List Migration)
    (asDep : Bool) (confirm : Migration → Bool) (now : Nat) (user : String) :
    Except String TargetState :=
  match dependenciesOf g chosen with
  | .error e => .error e
  | .ok plan => plan.foldlM (upStep st chosen asDep confirm now user) st

/-- Observable target operation, for stating in which order the
    `rerun-modified` transaction reverts and re-applies. -/
inductive TargetOp where
  | down (id : CompositeId)
  | up (id : CompositeId) (asDep : Bool)
deriving DecidableEq, Repr

/-- Run `PostgreSqlTarget.down(*migrations)` over a state/trace pair. -/
def targetDownOps (s : TargetState × List TargetOp) (ms : List Migration) :
    TargetState × List TargetOp :=
  ms.foldl (fun s m => (targetDownApply s.1 m, s.2 ++ [TargetOp.down m.id])) s

/-- Run `PostgreSqlTarget.up(m, as_dependency := asDep)` over a state/trace
    pair. -/
def targetUpOps (s : TargetState × List TargetOp) (m : Migration) (asDep : Bool)
    (now : Nat) (user : String) : TargetState × List TargetOp :=
  (targetUpApply s.1 m asDep now user, s.2 ++ [TargetOp.up m.id asDep])

/-- Modified set the `rerun-modified` command operates on: the modified
    migrations, restricted to the selection when one was given. -/
def rerunSelection (g : RepoGraph) (st : TargetState)
    (selection : List Migration) : List Migration :=
  if selection.length > 0 then
    (modifiedMigrations g st).filter (fun m => decide (m ∈ selection))
  else modifiedMigrations g st

/-- The `rerun-modified` transaction body, over the applied dependants
    pairs `with_dependants`: revert every element in sequence order, then
    re-apply them in reverse, each with its prior dependency flag. -/
def rerunTransaction (st : TargetState)
    (withDeps : List (Migration × MigrationApplication))
    (now : Nat) (user : String) : TargetState × List TargetOp :=
  let s1 := targetDownOps (st, []) (withDeps.map Prod.fst)
  withDeps.reverse.foldl
    (fun s p => targetUpOps s p.1 p.2.is_dependency now user) s1

/-- The `rerun-modified` command (`src/mitch/cli/commands/rerun_modified.py`)
    with confirmation granted: restrict the modified set to the selection if
    one was given, expand via `dependants_of`, keep the applied elements, and
    run the transaction body over them. -/
def rerunModified (g : RepoGraph) (st : TargetState) (selection : List Migration)
    (now : Nat) (user : String) : Except String (TargetState × List TargetOp) :=
  if (rerunSelection g st selection).length = 0 then .ok (st, [])
  else
    match dependantsOf g (rerunSelection g st selection) with
    | .error e => .error e
    | .ok order =>
      .ok (rerunTransaction st
        (order.filterMap (fun m => (lookupApplication st m.id).map (fun a => (m, a))))
        now user)

/-- Python `Path.parents` of a directory (a path is its list of components
    from the filesystem root): nearest parent first, root last. -/
def parentsOf (p : List String) : List (List String) :=
  ((List.range p.length).map (fun k => p.take k)).reverse

/-- Repository discovery, from `Repository.from_closest_parent`:
    the code iterates `reversed([*directory.parents, directory])` and returns
    the first directory whose `mitch.toml` has a `repository` table
    (`hasRepoConfig`); `none` models the "no repository" failure. -/
def fromClosestParent (hasRepoConfig : List String → Bool)
    (directory : List String) : Option (List String) :=
  ((parentsOf directory ++ [directory]).reverse).find? hasRepoConfig

/-- Discovery as the specification words it: examine the working directory,
    then its ancestors walking upward toward the filesystem root, and return
    the first hit. -/
def specClosestAncestor (hasRepoConfig : List String → Bool)
    (directory : List String) : Option (List String) :=
  (directory :: parentsOf directory).find? hasRepoConfig

/-- The `relations` table of a `migration.toml`. -/
structure RelationsConfig where
  dependencies : Option (List String) := none
deriving DecidableEq, Repr

/-- Parsed contents of a `migration.toml` file; `none` models an absent
    key. -/
structure MigrationConfig where
  id : Option String := none
  author : Option String := none
  created_at : Option Nat := none
  transactional : Option Bool := none
  idempotent : Option Bool := none
  relations : Option RelationsConfig := none
  dependencies : Option (List String) := none
deriving DecidableEq, Repr

/-- Migration construction from a descriptor, from `Migration.from_config`:
    `dependencies = relations.get("dependencies") or config.pop("dependencies") or set()`.
    A missing or empty `relations.dependencies` falls through to the
    top-level `dependencies` key, and `config.pop` without a default raises
    `KeyError` when that key is absent.  `pathRelativeId` is the default id
    (the directory path relative to the repository root). -/
def Migration.from_config (cfg : MigrationConfig) (pathRelativeId : String)
    (repoName : String) : Except String Migration :=
  let migId := cfg.id.getD pathRelativeId
  let mk := fun (deps : List String) =>
    { repository_name := repoName
      migration_id := migId
      author := cfg.author
      created_at := cfg.created_at
      dependencies := deps
      idempotent := cfg.idempotent.getD false
      transactional := cfg.transactional.getD true : Migration }
  match (match cfg.relations with
         | some rel => rel.dependencies
         | none => none) with
  | some (d :: ds) => .ok (mk (d :: ds))
  | _ =>
    match cfg.dependencies with
    | some deps2 => .ok (mk deps2)
    | none => .error "KeyError: dependencies"

/-- Decomposition of `s` at the first occurrence of `sep`: `s` splits as
    `a ++ sep ++ b` and no decomposition has a shorter left part. -/
def FirstSepSplit (sep s a b : List Char) : Prop :=
  s = a ++ sep ++ b ∧ ∀ a2 b2, s = a2 ++ sep ++ b2 → a.length ≤ a2.length

/-- Some node on a cycle of the `preds` edges is reachable from `m`. -/
def reachesCycle (preds : Migration → List Migration) (m : Migration) : Prop :=
  ∃ c, Relation.ReflTransGen (fun a b => b ∈ preds a) m c ∧
    Relation.TransGen (fun a b => b ∈ preds a) c c

/-- The composite keys of the application rows are pairwise distinct, as the
    primary key of `mitch.applied_migrations` guarantees. -/
def NodupKeys (st : TargetState) : Prop :=
  (st.map MigrationApplication.id).Nodup

/-- Number of application rows carrying a given composite key. -/
def countKey (st : TargetState) (id : CompositeId) : Nat :=
  (st.filter (fun a => decide (a.id = id))).length

/-- Witness fixture: migration `main::a` (no dependencies). -/
def wA : Migration :=
  { repository_name := "main", migration_id := "a", created_at := some 1
    up_script_sha256 := "ha", reformatted_up_script_sha256 := "ca" }

/-- Witness fixture: migration `main::b`, depending on `main::a`. -/
def wB : Migration :=
  { repository_name := "main", migration_id := "b", created_at := some 2
    dependencies := ["a"]
    up_script_sha256 := "hb", reformatted_up_script_sha256 := "cb" }

/-- Witness fixture: migration `main::c`, depending on `main::b`. -/
def wC : Migration :=
  { repository_name := "main", migration_id := "c", created_at := some 3
    dependencies := ["b"]
    up_script_sha256 := "hc", reformatted_up_script_sha256 := "cc" }

/-- Witness fixture: linear graph `a ← b ← c` (c depends on b on a). -/
def gW : RepoGraph :=
  { migrations := [wA, wB, wC]
    deps := fun m => if m = wC then [wB] else if m = wB then [wA] else []
    dependants := fun m => if m = wA then [wB] else if m = wB then [wC] else [] }

/-- Topological numbering of the witness graph. -/
def rankW : Migration → Int :=
  fun m => if m = wA then 0 else if m = wB then 1 else 2

/-- Counterexample fixture: graph with `a` depending on `b` and a two-cycle
    `b ⇄ c` among the dependency edges. -/
def gCyc : RepoGraph :=
  { migrations := [wA, wB, wC]
    deps := fun m => if m = wA then [wB] else if m = wB then [wC] else [wB]
    dependants := fun m => if m = wB then [wA, wC] else if m = wC then [wB] else [] }

/-- Witness fixture: row recording `main::a` as a dependency application. -/
def rowADep : MigrationApplication :=
  { repository_id := "main", migration_id := "a", up_script_sha256 := "ha"
    reformatted_up_script_sha256 := some "ca", is_dependency := true }

/-- Witness fixture: stale row for `main::b` (hashes no longer match). -/
def rowBOld : MigrationApplication :=
  { repository_id := "main", migration_id := "b", up_script_sha256 := "old"
    reformatted_up_script_sha256 := some "oldc", is_dependency := true }

/-- Witness fixture: current row for `main::c`, explicitly applied. -/
def rowCCur : MigrationApplication :=
  { repository_id := "main", migration_id := "c", up_script_sha256 := "hc"
    reformatted_up_script_sha256 := some "cc", is_dependency := false }

/-- The `MigrationApplication` class object: in Python the dataclass default
    `applied_at: datetime = datetime.now()` is evaluated once, when the class
    definition executes at import time, and the resulting value is stored on
    the class. -/
structure MigrationApplicationClass where
  applied_at_default : Nat

/-- Module import: `datetime.now()` runs once at class-definition time. -/
def defineMigrationApplicationClass (importTime : Nat) : MigrationApplicationClass :=
  ⟨importTime⟩

/-- Construct a `MigrationApplication` without an explicit `applied_at`.
    The construction happens at wall-clock time `constructionTime`, but the
    dataclass fills `applied_at` from the value stored on the class, so
    `constructionTime` does not enter the result. -/
def mkApplicationWithDefault (cls : MigrationApplicationClass)
    (constructionTime : Nat) (repo mid hash : String) : MigrationApplication :=
  { repository_id := repo
    migration_id := mid
    up_script_sha256 := hash
    applied_at := cls.applied_at_default }

/-- A nonempty separator is never a prefix of the empty list. -/
theorem startsWithSep_nil {c : Char} {cs : List Char} :
    startsWithSep (c :: cs) [] = false := rfl

/-- Prefix test characterization. -/
theorem startsWithSep_iff (sep : List Char) :
    ∀ s, startsWithSep sep s = true ↔ ∃ t, s = sep ++ t := by
  induction sep with
  | nil =>
    intro s
    simpa [startsWithSep] using ⟨s, rfl⟩
  | cons c cs ih =>
    intro s
    cases s with
    | nil =>
      simp [startsWithSep]
    | cons d ds =>
      simp only [startsWithSep, Bool.and_eq_true, decide_eq_true_eq, ih ds,
        List.cons_append, List.cons.injEq]
      constructor
      · rintro ⟨hcd, t, ht⟩
        exact ⟨t, hcd.symm, ht⟩
      · rintro ⟨t, hdc, ht⟩
        exact ⟨hdc.symm, t, ht⟩

/-- Soundness and minimality of `splitOnFirst`: a successful split is the
    decomposition at the first occurrence of the separator. -/
theorem splitOnFirst_some (sep : List Char) (hsep : sep ≠ []) :
    ∀ s a b, splitOnFirst sep s = some (a, b) → FirstSepSplit sep s a b := by
  intro s
  induction s with
  | nil =>
    intro a b h
    obtain ⟨c, cs, rfl⟩ : ∃ c cs, sep = c :: cs := by
      cases sep with
      | nil => exact absurd rfl hsep
      | cons c cs => exact ⟨c, cs, rfl⟩
    simp [splitOnFirst, startsWithSep_nil] at h
  | cons c rest ih =>
    intro a b h
    by_cases hsw : startsWithSep sep (c :: rest) = true
    · obtain ⟨t, ht⟩ := (startsWithSep_iff sep (c :: rest)).mp hsw
      simp only [splitOnFirst, hsw, if_true, Option.some.injEq, Prod.mk.injEq] at h
      obtain ⟨rfl, rfl⟩ := h
      refine ⟨?_, ?_⟩
      · simpa [ht] using List.drop_left sep t
      · intro a2 b2 _
        exact Nat.zero_le _
    · rw [splitOnFirst, if_neg hsw] at h
      match hrec : splitOnFirst sep rest with
      | none => rw [hrec] at h; exact absurd h (by simp)
      | some (a1, b1) =>
      rw [hrec] at h
      simp only [Option.some.injEq, Prod.mk.injEq] at h
      obtain ⟨rfl, rfl⟩ := h
      obtain ⟨hdec, hmin⟩ := ih a1 b1 hrec
      refine ⟨by simp [hdec], ?_⟩
      intro a2 b2 h2
      cases a2 with
      | nil =>
        exfalso
        apply hsw
        exact (startsWithSep_iff sep (c :: rest)).mpr ⟨b2, by simpa using h2⟩
      | cons c2 a3 =>
        simp only [List.cons_append, List.cons.injEq] at h2
        simpa using Nat.succ_le_succ (hmin a3 b2 h2.2)

/-- Completeness of `splitOnFirst`: failure means the separator does not
    occur in the input at all. -/
theorem splitOnFirst_none (sep : List Char) :
    ∀ s, splitOnFirst sep s = none → ∀ a b, s ≠ a ++ sep ++ b := by
  intro s
  induction s with
  | nil =>
    intro h a b hab
    have hsw : startsWithSep sep [] = false := by
      by_contra hcon
      simp only [Bool.not_eq_false] at hcon
      simp [splitOnFirst, hcon] at h
    cases a with
    | cons x xs => simp at hab
    | nil =>
      cases sep with
      | nil => simp [startsWithSep] at hsw
      | cons c cs => simp at hab
  | cons c rest ih =>
    intro h a b hab
    by_cases hsw : startsWithSep sep (c :: rest) = true
    · simp [splitOnFirst, hsw] at h
    · rw [splitOnFirst, if_neg hsw] at h
      have hrec : splitOnFirst sep rest = none := by
        match hr : splitOnFirst sep rest with
        | none => rfl
        | some p => rw [hr] at h; exact absurd h (by simp)
      cases a with
      | nil =>
        exact hsw ((startsWithSep_iff sep (c :: rest)).mpr ⟨b, by simpa using hab⟩)
      | cons c2 a3 =>
        simp only [List.cons_append, List.cons.injEq] at hab
        exact ih hrec a3 b hab.2

/-- C5 (counterexample).  The composite-id parser does not reject empty
    repository or migration parts, and a supplied but empty default prefix
    fails rather than being used: `"::x"` parses to `("", "x")`, `"x::"`
    parses to `("x", "")`, and `"x"` with prefix `""` is an error. -/
theorem composite_id_parser_accepts_empty_parts :
    CompositeId.from_string "::x" none = .ok ⟨"", "x"⟩ ∧
    CompositeId.from_string "x::" none = .ok ⟨"x", ""⟩ ∧
    CompositeId.from_string "x" (some "") = .error "Invalid composite id: x" :=
  ⟨rfl, rfl, rfl⟩

/-- C5 (amended).  The composite-id parser splits on the first occurrence of
    `::`: any input containing `::` yields the two parts around the first
    occurrence verbatim, empty parts included; an input without `::` yields
    `(prefix, input)` when a non-empty default prefix was supplied and fails
    when the prefix is absent or empty. -/
theorem composite_id_parser_spec (s : String) (pfx : Option String) :
    (∀ a b, FirstSepSplit compositeSep s.toList a b →
      CompositeId.from_string s pfx = .ok ⟨String.mk a, String.mk b⟩) ∧
    ((∀ a b, s.toList ≠ a ++ compositeSep ++ b) →
      (∀ p, pfx = some p → p ≠ "" → CompositeId.from_string s pfx = .ok ⟨p, s⟩) ∧
      ((pfx = none ∨ pfx = some "") →
        CompositeId.from_string s pfx = .error ("Invalid composite id: " ++ s))) := by
  constructor
  · rintro a b ⟨hdec, hmin⟩
    have hsepne : compositeSep ≠ [] := by simp [compositeSep]
    match hsplit : splitOnFirst compositeSep s.toList with
    | none =>
      exact absurd hdec (splitOnFirst_none compositeSep s.toList hsplit a b)
    | some (a0, b0) =>
      obtain ⟨hdec0, hmin0⟩ := splitOnFirst_some compositeSep hsepne s.toList a0 b0 hsplit
      have hlen : a.length = a0.length :=
        Nat.le_antisymm (hmin a0 b0 hdec0) (hmin0 a b hdec)
      have hcat : a ++ (compositeSep ++ b) = a0 ++ (compositeSep ++ b0) := by
        rw [← List.append_assoc, ← List.append_assoc, ← hdec, ← hdec0]
      obtain ⟨ha, hb⟩ := List.append_inj hcat hlen
      have hb2 : b = b0 := List.append_cancel_left hb
      subst ha hb2
      unfold CompositeId.from_string
      rw [hsplit]
  · intro hno
    have hsplit : splitOnFirst compositeSep s.toList = none := by
      match hsp : splitOnFirst compositeSep s.toList with
      | none => rfl
      | some (a0, b0) =>
        have := (splitOnFirst_some compositeSep (by simp [compositeSep])
          s.toList a0 b0 hsp).1
        exact absurd this (hno a0 b0)
    constructor
    · rintro p rfl hp
      unfold CompositeId.from_string
      rw [hsplit]
      simp [hp]
    · rintro (rfl | rfl)
      · unfold CompositeId.from_string
        rw [hsplit]
      · unfold CompositeId.from_string
        rw [hsplit]
        simp

/-- C5 (amended, witness): the canonical two-part form parses verbatim. -/
theorem composite_id_parser_spec_witness :
    CompositeId.from_string "a::b" none = .ok ⟨"a", "b"⟩ := by
  have h := (composite_id_parser_spec "a::b" none).1 ['a'] ['b']
  refine h ⟨rfl, ?_⟩
  intro a2 b2 h2
  cases a2 with
  | nil =>
    exfalso
    have : "a::b".toList = [':', ':'] ++ b2 := by simpa [compositeSep] using h2
    simp at this
  | cons c2 a3 => simp

/-- C1.  Repository discovery does not select the nearest enclosing
    repository: `Repository.from_closest_parent` iterates
    `reversed([*directory.parents, directory])`, which checks the working
    directory first and then the ancestors from the filesystem root
    downward.  With repository descriptors at both `/a` and `/a/b` and
    working directory `/a/b/c`, the code returns `/a` while the nearest
    ancestor (as the specification demands) is `/a/b`. -/
theorem from_closest_parent_picks_farthest_ancestor :
    fromClosestParent (fun p => decide (p = ["a"]) || decide (p = ["a", "b"]))
      ["a", "b", "c"] = some ["a"] ∧
    specClosestAncestor (fun p => decide (p = ["a"]) || decide (p = ["a", "b"]))
      ["a", "b", "c"] = some ["a", "b"] ∧
    fromClosestParent (fun _ => false) ["a", "b", "c"] = none := by
  refine ⟨by decide, by decide, by decide⟩

/-- C4.  `MigrationApplication.matches` holds exactly when the stored raw
    up-script SHA-256 equals the migration's raw hash or the stored
    canonicalized up-script SHA-256 equals the migration's canonical hash. -/
theorem matches_iff_hash_equality (a : MigrationApplication) (m : Migration) :
    a.matches m = true ↔
      (a.up_script_sha256 = m.up_script_sha256 ∨
        a.reformatted_up_script_sha256 = some m.reformatted_up_script_sha256) := by
  simp [MigrationApplication.matches]

/-- C9.  `Migration.from_config` raises instead of defaulting to the empty
    dependency set: with both the top-level `dependencies` array and
    `relations.dependencies` absent, and likewise with
    `relations.dependencies` present but empty, `config.pop("dependencies")`
    raises `KeyError`. -/
theorem from_config_raises_without_dependencies :
    Migration.from_config {} "m1" "repo" = .error "KeyError: dependencies" ∧
    Migration.from_config { relations := some { dependencies := some [] } }
      "m1" "repo" = .error "KeyError: dependencies" ∧
    (({} : MigrationConfig).dependencies = none ∧
      ({ repository_name := "repo", migration_id := "m1" : Migration }).dependencies = []) :=
  ⟨rfl, rfl, rfl, rfl⟩

/-- C10.  The default `applied_at` of `MigrationApplication` is evaluated
    once, at class-definition time: two records constructed without an
    explicit `applied_at` at any two construction times carry the identical
    timestamp, namely the import-time clock value. -/
theorem applied_at_default_is_class_level (t0 t1 t2 : Nat)
    (r1 m1 h1 r2 m2 h2 : String) :
    (mkApplicationWithDefault (defineMigrationApplicationClass t0) t1 r1 m1 h1).applied_at =
      (mkApplicationWithDefault (defineMigrationApplicationClass t0) t2 r2 m2 h2).applied_at ∧
    (mkApplicationWithDefault (defineMigrationApplicationClass t0) t1 r1 m1 h1).applied_at = t0 :=
  ⟨rfl, rfl⟩

/-- Case analysis for lexicographic composition of three-way comparisons. -/
theorem ordering_then_ne_gt (o r : Ordering) :
    (match o with | .eq => r | x => x) ≠ .gt ↔ (o = .eq ∧ r ≠ .gt) ∨ o = .lt := by
  cases o <;> simp

/-- Natural comparison is `.lt` exactly on strictly smaller arguments. -/
theorem cmpNat_eq_lt {a b : Nat} : cmpNat a b = .lt ↔ a < b := by
  unfold cmpNat
  split
  · simp [by assumption]
  · split <;> simp <;> omega

/-- Natural comparison is `.eq` exactly on equal arguments. -/
theorem cmpNat_eq_eq {a b : Nat} : cmpNat a b = .eq ↔ a = b := by
  unfold cmpNat
  split
  · simp; omega
  · split <;> simp <;> omega

/-- Swapping the arguments of the natural comparison swaps the outcome. -/
theorem cmpNat_swap (a b : Nat) : (cmpNat a b).swap = cmpNat b a := by
  unfold cmpNat
  split <;> split <;> simp_all [Ordering.swap] <;> omega

/-- Character-list comparison is `.eq` only on equal lists. -/
theorem cmpCharList_eq_eq : ∀ {a b : List Char}, cmpCharList a b = .eq ↔ a = b := by
  intro a
  induction a with
  | nil => intro b; cases b <;> simp [cmpCharList]
  | cons x xs ih =>
    intro b
    cases b with
    | nil => simp [cmpCharList]
    | cons y ys =>
      simp only [cmpCharList, List.cons.injEq]
      rcases ho : cmpNat x.toNat y.toNat with _ | _ | _
      · constructor
        · intro h; cases h
        · rintro ⟨rfl, -⟩
          rw [cmpNat_eq_eq.mpr rfl] at ho
          cases ho
      · rw [ih]
        have hxy : x = y := by
          have h2 := cmpNat_eq_eq.mp ho
          exact Char.ext (UInt32.toNat.inj (by simpa [Char.toNat] using h2))
        simp [hxy]
      · constructor
        · intro h; cases h
        · rintro ⟨rfl, -⟩
          rw [cmpNat_eq_eq.mpr rfl] at ho
          cases ho

/-- Swapping the arguments of the character-list comparison swaps the
    outcome. -/
theorem cmpCharList_swap : ∀ (a b : List Char),
    (cmpCharList a b).swap = cmpCharList b a := by
  intro a
  induction a with
  | nil => intro b; cases b <;> simp [cmpCharList, Ordering.swap]
  | cons x xs ih =>
    intro b
    cases b with
    | nil => simp [cmpCharList, Ordering.swap]
    | cons y ys =>
      simp only [cmpCharList]
      rcases ho : cmpNat x.toNat y.toNat with _ | _ | _
      · have hba : cmpNat y.toNat x.toNat = .gt := by
          rw [← cmpNat_swap, ho]; rfl
        rw [hba]; rfl
      · have hba : cmpNat y.toNat x.toNat = .eq := by
          rw [← cmpNat_swap, ho]; rfl
        rw [hba]
        exact ih ys
      · have hba : cmpNat y.toNat x.toNat = .lt := by
          rw [← cmpNat_swap, ho]; rfl
        rw [hba]; rfl

/-- Strict transitivity of the character-list comparison. -/
theorem cmpCharList_lt_trans : ∀ {a b c : List Char},
    cmpCharList a b = .lt → cmpCharList b c = .lt → cmpCharList a c = .lt := by
  intro a
  induction a with
  | nil =>
    intro b c hab hbc
    cases b with
    | nil => exact hbc
    | cons y ys =>
      cases c with
      | nil => simp [cmpCharList] at hbc
      | cons z zs => simp [cmpCharList]
  | cons x xs ih =>
    intro b c hab hbc
    cases b with
    | nil => simp [cmpCharList] at hab
    | cons y ys =>
      cases c with
      | nil => simp [cmpCharList] at hbc
      | cons z zs =>
        simp only [cmpCharList] at hab hbc ⊢
        rcases h1 : cmpNat x.toNat y.toNat with _ | _ | _ <;> rw [h1] at hab <;>
          rcases h2 : cmpNat y.toNat z.toNat with _ | _ | _ <;> rw [h2] at hbc
        · rw [cmpNat_eq_lt.mpr (Nat.lt_trans (cmpNat_eq_lt.mp h1) (cmpNat_eq_lt.mp h2))]
        · rw [show cmpNat x.toNat z.toNat = .lt from by
            rw [← cmpNat_eq_eq.mp h2]; exact h1]
        · cases hbc
        · rw [show cmpNat x.toNat z.toNat = .lt from by
            rw [cmpNat_eq_eq.mp h1]; exact h2]
        · rw [show cmpNat x.toNat z.toNat = .eq from by
            rw [cmpNat_eq_eq.mp h1]; exact h2]
          exact ih hab hbc
        · cases hbc
        · cases hab
        · cases hab
        · cases hab

/-- Weak transitivity of the character-list comparison. -/
theorem cmpCharList_le_trans {a b c : List Char}
    (hab : cmpCharList a b ≠ .gt) (hbc : cmpCharList b c ≠ .gt) :
    cmpCharList a c ≠ .gt := by
  rcases h1 : cmpCharList a b with _ | _ | _
  · rcases h2 : cmpCharList b c with _ | _ | _
    · rw [cmpCharList_lt_trans h1 h2]; simp
    · rw [← cmpCharList_eq_eq.mp h2, h1]; simp
    · exact absurd h2 hbc
  · rw [cmpCharList_eq_eq.mp h1]
    exact hbc
  · exact absurd h1 hab

/-- String comparison is `.eq` only on equal strings. -/
theorem cmpString_eq_eq {a b : String} : cmpString a b = .eq ↔ a = b := by
  unfold cmpString
  rw [cmpCharList_eq_eq]
  constructor
  · intro h
    cases a; cases b
    exact congrArg String.mk h
  · intro h; rw [h]

/-- Strict transitivity of the string comparison. -/
theorem cmpString_lt_trans {a b c : String}
    (hab : cmpString a b = .lt) (hbc : cmpString b c = .lt) :
    cmpString a c = .lt :=
  cmpCharList_lt_trans hab hbc

/-- Swapping the arguments of the string comparison swaps the outcome. -/
theorem cmpString_swap (a b : String) : (cmpString a b).swap = cmpString b a :=
  cmpCharList_swap a.toList b.toList

/-- Swapping the arguments of the key comparison swaps the outcome. -/
theorem cmpKey_swap (k l : Nat × String × String) : (cmpKey k l).swap = cmpKey l k := by
  unfold cmpKey
  rcases h1 : cmpNat k.1 l.1 with _ | _ | _
  · have h1s : cmpNat l.1 k.1 = .gt := by rw [← cmpNat_swap, h1]; rfl
    rw [h1s]; rfl
  · have h1s : cmpNat l.1 k.1 = .eq := by rw [← cmpNat_swap, h1]; rfl
    rw [h1s]
    rcases h2 : cmpString k.2.1 l.2.1 with _ | _ | _
    · have h2s : cmpString l.2.1 k.2.1 = .gt := by rw [← cmpString_swap, h2]; rfl
      rw [h2s]; rfl
    · have h2s : cmpString l.2.1 k.2.1 = .eq := by rw [← cmpString_swap, h2]; rfl
      rw [h2s]
      exact cmpString_swap _ _
    · have h2s : cmpString l.2.1 k.2.1 = .lt := by rw [← cmpString_swap, h2]; rfl
      rw [h2s]; rfl
  · have h1s : cmpNat l.1 k.1 = .lt := by rw [← cmpNat_swap, h1]; rfl
    rw [h1s]; rfl

/-- Transitivity of the ascending sort-key order. -/
theorem keyLE_trans {a b c : Migration}
    (hab : keyLE a b = true) (hbc : keyLE b c = true) : keyLE a c = true := by
  unfold keyLE at hab hbc ⊢
  simp only [decide_eq_true_eq, ne_eq] at hab hbc ⊢
  unfold cmpKey at hab hbc ⊢
  rcases (ordering_then_ne_gt _ _).mp hab with ⟨h1, h1r⟩ | h1 <;>
    rcases (ordering_then_ne_gt _ _).mp hbc with ⟨h2, h2r⟩ | h2
  · apply (ordering_then_ne_gt _ _).mpr
    refine Or.inl ⟨cmpNat_eq_eq.mpr ((cmpNat_eq_eq.mp h1).trans (cmpNat_eq_eq.mp h2)), ?_⟩
    rcases (ordering_then_ne_gt _ _).mp h1r with ⟨h3, h3r⟩ | h3 <;>
      rcases (ordering_then_ne_gt _ _).mp h2r with ⟨h4, h4r⟩ | h4
    · apply (ordering_then_ne_gt _ _).mpr
      exact Or.inl ⟨cmpString_eq_eq.mpr
        ((cmpString_eq_eq.mp h3).trans (cmpString_eq_eq.mp h4)),
        cmpCharList_le_trans h3r h4r⟩
    · apply (ordering_then_ne_gt _ _).mpr
      refine Or.inr ?_
      rw [cmpString_eq_eq.mp h3]
      exact h4
    · apply (ordering_then_ne_gt _ _).mpr
      refine Or.inr ?_
      rw [← cmpString_eq_eq.mp h4]
      exact h3
    · exact (ordering_then_ne_gt _ _).mpr (Or.inr (cmpString_lt_trans h3 h4))
  · apply (ordering_then_ne_gt _ _).mpr
    refine Or.inr (cmpNat_eq_lt.mpr ?_)
    rw [cmpNat_eq_eq.mp h1]
    exact cmpNat_eq_lt.mp h2
  · apply (ordering_then_ne_gt _ _).mpr
    refine Or.inr (cmpNat_eq_lt.mpr ?_)
    rw [← cmpNat_eq_eq.mp h2]
    exact cmpNat_eq_lt.mp h1
  · exact (ordering_then_ne_gt _ _).mpr
      (Or.inr (cmpNat_eq_lt.mpr (Nat.lt_trans (cmpNat_eq_lt.mp h1) (cmpNat_eq_lt.mp h2))))

/-- Totality of the ascending sort-key order. -/
theorem keyLE_total (a b : Migration) : keyLE a b = true ∨ keyLE b a = true := by
  unfold keyLE
  simp only [decide_eq_true_eq, ne_eq]
  by_cases h : cmpKey a.sort_key b.sort_key = .gt
  · right
    rw [← cmpKey_swap, h]
    simp [Ordering.swap]
  · left
    exact h

/-- A failing neighbor fails the whole expansion step. -/
theorem recDepsStep_none_of_mem {f : Migration → Option (List Migration)}
    {ds : List Migration} {d : Migration} (hd : d ∈ ds) (hf : f d = none) :
    recDepsStep f ds = none := by
  induction ds with
  | nil => cases hd
  | cons d0 rest ih =>
    rcases List.mem_cons.mp hd with rfl | hmem
    · unfold recDepsStep
      rw [hf]
    · unfold recDepsStep
      rw [ih hmem]
      cases f d0 <;> rfl

/-- A successful expansion step contains every neighbor together with its
    whole recursive closure. -/
theorem recDepsStep_some {f : Migration → Option (List Migration)} :
    ∀ {ds s}, recDepsStep f ds = some s →
      ∀ d ∈ ds, d ∈ s ∧ ∃ rd, f d = some rd ∧ ∀ x ∈ rd, x ∈ s := by
  intro ds
  induction ds with
  | nil => intro s _ d hd; cases hd
  | cons d0 rest ih =>
    intro s h d hd
    unfold recDepsStep at h
    match hf : f d0, hr : recDepsStep f rest with
    | some rd0, some r2 =>
      rw [hf, hr] at h
      simp only [Option.some.injEq] at h
      subst h
      rcases List.mem_cons.mp hd with rfl | hmem
      · exact ⟨List.mem_cons_self _ _, rd0, hf, fun x hx => by simp [hx]⟩
      · obtain ⟨hds, rd, hfd, hsub⟩ := ih hr d hmem
        exact ⟨by simp [List.mem_append, hds], rd, hfd,
          fun x hx => by simp [List.mem_append, hsub x hx]⟩
    | some _, none => rw [hf, hr] at h; cases h
    | none, _ => rw [hf] at h; cases h

/-- Everything a successful expansion step returns is a neighbor or comes
    from a neighbor's recursive closure. -/
theorem recDepsStep_mem {f : Migration → Option (List Migration)} :
    ∀ {ds s}, recDepsStep f ds = some s →
      ∀ x ∈ s, ∃ d ∈ ds, x = d ∨ ∃ rd, f d = some rd ∧ x ∈ rd := by
  intro ds
  induction ds with
  | nil =>
    intro s h x hx
    unfold recDepsStep at h
    simp only [Option.some.injEq] at h
    subst h
    cases hx
  | cons d0 rest ih =>
    intro s h x hx
    unfold recDepsStep at h
    match hf : f d0, hr : recDepsStep f rest with
    | some rd0, some r2 =>
      rw [hf, hr] at h
      simp only [Option.some.injEq] at h
      subst h
      rcases List.mem_cons.mp hx with rfl | hx2
      · exact ⟨x, List.mem_cons_self _ _, Or.inl rfl⟩
      · rcases List.mem_append.mp hx2 with hx3 | hx3
        · exact ⟨d0, List.mem_cons_self _ _, Or.inr ⟨rd0, hf, hx3⟩⟩
        · obtain ⟨d, hd, hcase⟩ := ih hr x hx3
          exact ⟨d, List.mem_cons_of_mem _ hd, hcase⟩
    | some _, none => rw [hf, hr] at h; cases h
    | none, _ => rw [hf] at h; cases h

/-- The expansion step succeeds when every neighbor's closure does. -/
theorem recDepsStep_isSome {f : Migration → Option (List Migration)} :
    ∀ {ds}, (∀ d ∈ ds, (f d).isSome) → (recDepsStep f ds).isSome := by
  intro ds
  induction ds with
  | nil => intro _; simp [recDepsStep]
  | cons d0 rest ih =>
    intro h
    obtain ⟨rd0, hf⟩ := Option.isSome_iff_exists.mp (h d0 (List.mem_cons_self _ _))
    obtain ⟨r2, hr⟩ := Option.isSome_iff_exists.mp
      (ih (fun d hd => h d (List.mem_cons_of_mem _ hd)))
    unfold recDepsStep
    rw [hf, hr]
    rfl

/-- Soundness of the recursive closure: every member is reachable. -/
theorem recDeps_sound (preds : Migration → List Migration) :
    ∀ fuel m s, recDeps preds fuel m = some s →
      ∀ x ∈ s, Relation.TransGen (fun a b => b ∈ preds a) m x := by
  intro fuel
  induction fuel with
  | zero => intro m s h; cases h
  | succ fuel ih =>
    intro m s h x hx
    obtain ⟨d, hd, hcase⟩ := recDepsStep_mem h x hx
    rcases hcase with rfl | ⟨rd, hfd, hxrd⟩
    · exact Relation.TransGen.single hd
    · exact Relation.TransGen.head hd (ih d rd hfd x hxrd)

/-- Completeness of the recursive closure: every reachable migration is a
    member. -/
theorem recDeps_complete (preds : Migration → List Migration) :
    ∀ fuel m s, recDeps preds fuel m = some s →
      ∀ x, Relation.TransGen (fun a b => b ∈ preds a) m x → x ∈ s := by
  intro fuel
  induction fuel with
  | zero => intro m s h; cases h
  | succ fuel ih =>
    intro m s h x htg
    obtain ⟨b, hb, hrt⟩ := Relation.TransGen.head'_iff.mp htg
    obtain ⟨hbs, rb, hrb, hsub⟩ := recDepsStep_some h b hb
    rcases Relation.reflTransGen_iff_eq_or_transGen.mp hrt with rfl | htg2
    · exact hbs
    · exact hsub x (ih b rb hrb x htg2)

/-- A successful recursive closure is closed under the edges. -/
theorem recDeps_closed (preds : Migration → List Migration)
    {fuel m s} (h : recDeps preds fuel m = some s) :
    ∀ x ∈ s, ∀ d ∈ preds x, d ∈ s := by
  intro x hx d hd
  exact recDeps_complete preds fuel m s h d
    (Relation.TransGen.tail (recDeps_sound preds fuel m s h x hx) hd)

/-- Reachability stays inside an edge-closed universe. -/
theorem transGen_mem (preds : Migration → List Migration)
    (univ : List Migration) (hU : ∀ m ∈ univ, ∀ d ∈ preds m, d ∈ univ)
    {m x} (hm : m ∈ univ)
    (h : Relation.TransGen (fun a b => b ∈ preds a) m x) : x ∈ univ := by
  induction h with
  | single hb => exact hU m hm _ hb
  | tail _ hb ih => exact hU _ ih _ hb

/-- The recursive closure stays inside an edge-closed universe. -/
theorem recDeps_subset (preds : Migration → List Migration)
    (univ : List Migration) (hU : ∀ m ∈ univ, ∀ d ∈ preds m, d ∈ univ)
    {fuel m s} (h : recDeps preds fuel m = some s) (hm : m ∈ univ) :
    ∀ x ∈ s, x ∈ univ := by
  intro x hx
  exact transGen_mem preds univ hU hm (recDeps_sound preds fuel m s h x hx)

/-- With a topological numbering, the recursive closure succeeds once the
    fuel exceeds the number of strictly lower-ranked migrations. -/
theorem recDeps_isSome (preds : Migration → List Migration)
    (univ : List Migration) (rank : Migration → Int)
    (hU : ∀ m ∈ univ, ∀ d ∈ preds m, d ∈ univ)
    (hrank : ∀ m ∈ univ, ∀ d ∈ preds m, rank d < rank m) :
    ∀ fuel m, m ∈ univ →
      (univ.filter (fun x => decide (rank x < rank m))).length < fuel →
      (recDeps preds fuel m).isSome := by
  intro fuel
  induction fuel with
  | zero => intro m _ hlt; omega
  | succ fuel ih =>
    intro m hm hlt
    apply recDepsStep_isSome
    intro d hd
    have hdU : d ∈ univ := hU m hm d hd
    have hdr : rank d < rank m := hrank m hm d hd
    have hsub : List.Sublist (univ.filter (fun x => decide (rank x < rank d)))
        (univ.filter (fun x => decide (rank x < rank m))) := by
      apply List.monotone_filter_right
      intro x hx
      simp only [decide_eq_true_eq] at hx ⊢
      omega
    have hmemd : d ∈ univ.filter (fun x => decide (rank x < rank m)) := by
      simp only [List.mem_filter, decide_eq_true_eq]
      exact ⟨hdU, hdr⟩
    have hnot : d ∉ univ.filter (fun x => decide (rank x < rank d)) := by
      simp only [List.mem_filter, decide_eq_true_eq]
      omega
    have hstrict : (univ.filter (fun x => decide (rank x < rank d))).length <
        (univ.filter (fun x => decide (rank x < rank m))).length := by
      rcases Nat.eq_or_lt_of_le hsub.length_le with heq | hlt2
      · exact absurd (hsub.eq_of_length heq ▸ hmemd) hnot
      · exact hlt2
    exact ih d hdU (by omega)

/-- On any reachable cycle the recursive closure diverges: no amount of fuel
    makes it succeed (Python dies with `RecursionError`). -/
theorem recDeps_cycle_none (preds : Migration → List Migration) :
    ∀ fuel m, reachesCycle preds m → recDeps preds fuel m = none := by
  intro fuel
  induction fuel with
  | zero => intro m _; rfl
  | succ fuel ih =>
    intro m hm
    obtain ⟨c, hrt, hcc⟩ := hm
    have step : ∃ b ∈ preds m, reachesCycle preds b := by
      rcases Relation.reflTransGen_iff_eq_or_transGen.mp hrt with rfl | htg
      · obtain ⟨b, hb, hrt2⟩ := Relation.TransGen.head'_iff.mp hcc
        exact ⟨b, hb, c, hrt2, hcc⟩
      · obtain ⟨b, hb, hrt2⟩ := Relation.TransGen.head'_iff.mp htg
        exact ⟨b, hb, c, hrt2, hcc⟩
    obtain ⟨b, hb, hrc⟩ := step
    exact recDepsStep_none_of_mem hb (ih b hrc)

/-- A failing member closure fails the whole selection closure. -/
theorem closureMany_none_of_mem {f : Migration → Option (List Migration)}
    {S : List Migration} {m : Migration} (hm : m ∈ S) (hf : f m = none) :
    closureMany f S = none := by
  induction S with
  | nil => cases hm
  | cons m0 rest ih =>
    rcases List.mem_cons.mp hm with rfl | hmem
    · unfold closureMany
      rw [hf]
    · unfold closureMany
      rw [ih hmem]
      cases f m0 <;> rfl

/-- The selection closure succeeds when every member closure does. -/
theorem closureMany_isSome {f : Migration → Option (List Migration)} :
    ∀ {S}, (∀ m ∈ S, (f m).isSome) → (closureMany f S).isSome := by
  intro S
  induction S with
  | nil => intro _; simp [closureMany]
  | cons m0 rest ih =>
    intro h
    obtain ⟨cl, hf⟩ := Option.isSome_iff_exists.mp (h m0 (List.mem_cons_self _ _))
    obtain ⟨r2, hr⟩ := Option.isSome_iff_exists.mp
      (ih (fun m hm => h m (List.mem_cons_of_mem _ hm)))
    unfold closureMany
    rw [hf, hr]
    rfl

/-- A successful selection closure contains each member's closure. -/
theorem closureMany_some_forall {f : Migration → Option (List Migration)} :
    ∀ {S cls}, closureMany f S = some cls →
      ∀ m ∈ S, ∃ cl, f m = some cl ∧ ∀ x ∈ cl, x ∈ cls := by
  intro S
  induction S with
  | nil => intro cls _ m hm; cases hm
  | cons m0 rest ih =>
    intro cls h m hm
    unfold closureMany at h
    match hf : f m0, hr : closureMany f rest with
    | some cl0, some r2 =>
      rw [hf, hr] at h
      simp only [Option.some.injEq] at h
      subst h
      rcases List.mem_cons.mp hm with rfl | hmem
      · exact ⟨cl0, hf, fun x hx => List.mem_append.mpr (Or.inl hx)⟩
      · obtain ⟨cl, hfm, hsub⟩ := ih hr m hmem
        exact ⟨cl, hfm, fun x hx => List.mem_append.mpr (Or.inr (hsub x hx))⟩
    | some _, none => rw [hf, hr] at h; cases h
    | none, _ => rw [hf] at h; cases h

/-- Everything in a successful selection closure comes from some member's
    closure. -/
theorem closureMany_mem {f : Migration → Option (List Migration)} :
    ∀ {S cls}, closureMany f S = some cls →
      ∀ x ∈ cls, ∃ m ∈ S, ∃ cl, f m = some cl ∧ x ∈ cl := by
  intro S
  induction S with
  | nil =>
    intro cls h x hx
    unfold closureMany at h
    simp only [Option.some.injEq] at h
    subst h
    cases hx
  | cons m0 rest ih =>
    intro cls h x hx
    unfold closureMany at h
    match hf : f m0, hr : closureMany f rest with
    | some cl0, some r2 =>
      rw [hf, hr] at h
      simp only [Option.some.injEq] at h
      subst h
      rcases List.mem_append.mp hx with hx2 | hx2
      · exact ⟨m0, List.mem_cons_self _ _, cl0, hf, hx2⟩
      · obtain ⟨m, hm, cl, hfm, hxcl⟩ := ih hr x hx2
        exact ⟨m, List.mem_cons_of_mem _ hm, cl, hfm, hxcl⟩
    | some _, none => rw [hf, hr] at h; cases h
    | none, _ => rw [hf] at h; cases h

/-- Shape of a successful sorter node set. -/
theorem sorterNodes_shape {preds fuel S nodes}
    (h : sorterNodes preds fuel S = some nodes) :
    ∃ cls, closureMany (recDeps preds fuel) S = some cls ∧
      nodes = (S ++ cls).dedup := by
  unfold sorterNodes at h
  match hc : closureMany (recDeps preds fuel) S with
  | some cls =>
    rw [hc] at h
    simp only [Option.map_some', Option.some.injEq] at h
    exact ⟨cls, rfl, h.symm⟩
  | none => rw [hc] at h; cases h

/-- Membership in the sorter node set: the selection plus everything in some
    selected migration's recursive closure. -/
theorem sorterNodes_mem {preds fuel S nodes}
    (h : sorterNodes preds fuel S = some nodes) :
    ∀ x, x ∈ nodes ↔
      x ∈ S ∨ ∃ m ∈ S, ∃ s, recDeps preds fuel m = some s ∧ x ∈ s := by
  obtain ⟨cls, hc, rfl⟩ := sorterNodes_shape h
  intro x
  rw [List.mem_dedup, List.mem_append]
  constructor
  · rintro (hx | hx)
    · exact Or.inl hx
    · obtain ⟨m, hm, cl, hf, hxcl⟩ := closureMany_mem hc x hx
      exact Or.inr ⟨m, hm, cl, hf, hxcl⟩
  · rintro (hx | ⟨m, hm, s, hf, hxs⟩)
    · exact Or.inl hx
    · obtain ⟨cl, hf2, hsub⟩ := closureMany_some_forall hc m hm
      rw [hf] at hf2
      cases hf2
      exact Or.inr (hsub x hxs)

/-- The sorter node set has no duplicates. -/
theorem sorterNodes_nodup {preds fuel S nodes}
    (h : sorterNodes preds fuel S = some nodes) : nodes.Nodup := by
  obtain ⟨cls, _, rfl⟩ := sorterNodes_shape h
  exact List.nodup_dedup _

/-- The selection is contained in the sorter node set. -/
theorem sorterNodes_sub_S {preds fuel S nodes}
    (h : sorterNodes preds fuel S = some nodes) : ∀ m ∈ S, m ∈ nodes := by
  intro m hm
  exact (sorterNodes_mem h m).mpr (Or.inl hm)

/-- The sorter node set is closed under the edges. -/
theorem sorterNodes_closed {preds fuel S nodes}
    (h : sorterNodes preds fuel S = some nodes) :
    ∀ x ∈ nodes, ∀ d ∈ preds x, d ∈ nodes := by
  intro x hx d hd
  rcases (sorterNodes_mem h x).mp hx with hxS | ⟨m, hm, s, hf, hxs⟩
  · obtain ⟨cls, hc, _⟩ := sorterNodes_shape h
    obtain ⟨cl, hf, _⟩ := closureMany_some_forall hc x hxS
    have hdcl : d ∈ cl :=
      recDeps_complete preds fuel x cl hf d (Relation.TransGen.single hd)
    exact (sorterNodes_mem h d).mpr (Or.inr ⟨x, hxS, cl, hf, hdcl⟩)
  · have hdcl : d ∈ s := recDeps_closed preds hf x hxs d hd
    exact (sorterNodes_mem h d).mpr (Or.inr ⟨m, hm, s, hf, hdcl⟩)

/-- The sorter node set stays inside an edge-closed universe. -/
theorem sorterNodes_sub_univ {preds fuel S nodes} (univ : List Migration)
    (hU : ∀ m ∈ univ, ∀ d ∈ preds m, d ∈ univ) (hS : ∀ m ∈ S, m ∈ univ)
    (h : sorterNodes preds fuel S = some nodes) : ∀ x ∈ nodes, x ∈ univ := by
  intro x hx
  rcases (sorterNodes_mem h x).mp hx with hxS | ⟨m, hm, s, hf, hxs⟩
  · exact hS x hxS
  · exact recDeps_subset preds univ hU hf (hS m hm) x hxs

/-- With a topological numbering and enough fuel, collecting the sorter
    nodes succeeds. -/
theorem sorterNodes_isSome (preds : Migration → List Migration)
    (univ : List Migration) (rank : Migration → Int)
    (hU : ∀ m ∈ univ, ∀ d ∈ preds m, d ∈ univ)
    (hrank : ∀ m ∈ univ, ∀ d ∈ preds m, rank d < rank m)
    {S} (hS : ∀ m ∈ S, m ∈ univ) :
    (sorterNodes preds (univ.length + 1) S).isSome := by
  unfold sorterNodes
  have h := closureMany_isSome (f := recDeps preds (univ.length + 1))
    (S := S) (fun m hm => recDeps_isSome preds univ rank hU hrank _ m (hS m hm)
      (Nat.lt_succ_of_le (List.length_filter_le _ _)))
  obtain ⟨cls, hc⟩ := Option.isSome_iff_exists.mp h
  rw [hc]
  rfl

/-- A member that reaches a cycle makes node collection fail. -/
theorem sorterNodes_none_of_cycle {preds fuel S m}
    (hm : m ∈ S) (hc : reachesCycle preds m) :
    sorterNodes preds fuel S = none := by
  unfold sorterNodes
  rw [closureMany_none_of_mem hm (recDeps_cycle_none preds fuel m hc)]
  rfl

/-- Shape of a successful non-terminal Kahn round. -/
theorem kahnBatches_succ_some {preds : Migration → List Migration}
    {le : Migration → Migration → Bool} {fuel : Nat}
    {remaining : List Migration} {bs : List (List Migration)}
    (hne : remaining ≠ [])
    (h : kahnBatches preds le (fuel + 1) remaining = some bs) :
    kahnReady preds remaining ≠ [] ∧
    ∃ bs2,
      kahnBatches preds le fuel
        (remaining.filter (fun m => !(decide (m ∈ kahnReady preds remaining)))) = some bs2 ∧
      bs = sortBatch le (kahnReady preds remaining) :: bs2 := by
  unfold kahnBatches at h
  rw [if_neg (by simpa [List.isEmpty_iff] using hne)] at h
  by_cases hr : (kahnReady preds remaining).isEmpty = true
  · rw [if_pos hr] at h
    cases h
  · rw [if_neg hr] at h
    refine ⟨by simpa [List.isEmpty_iff] using hr, ?_⟩
    match h2 : kahnBatches preds le fuel
        (remaining.filter (fun m => !(decide (m ∈ kahnReady preds remaining)))) with
    | some bs2 =>
      rw [h2] at h
      simp only [Option.some.injEq] at h
      exact ⟨bs2, rfl, h.symm⟩
    | none => rw [h2] at h; cases h

/-- The concatenation of the emitted batches is a permutation of the nodes
    the sorter started from. -/
theorem kahnBatches_perm (preds : Migration → List Migration)
    (le : Migration → Migration → Bool) :
    ∀ fuel remaining bs, kahnBatches preds le fuel remaining = some bs →
      bs.flatten.Perm remaining := by
  intro fuel
  induction fuel with
  | zero =>
    intro remaining bs h
    unfold kahnBatches at h
    cases remaining with
    | nil =>
      simp only [List.isEmpty_nil, if_true, Option.some.injEq] at h
      subst h
      rfl
    | cons x xs => simp [List.isEmpty_cons] at h
  | succ fuel ih =>
    intro remaining bs h
    by_cases hne : remaining = []
    · subst hne
      unfold kahnBatches at h
      simp only [List.isEmpty_nil, if_true, Option.some.injEq] at h
      subst h
      rfl
    · obtain ⟨hready, bs2, h2, rfl⟩ := kahnBatches_succ_some hne h
      have hperm2 := ih _ _ h2
      have hfeq : remaining.filter (fun m => !(decide (m ∈ kahnReady preds remaining))) =
          remaining.filter (fun m =>
            !((preds m).all (fun p => !(decide (p ∈ remaining))))) := by
        apply List.filter_congr
        intro m hm
        have : (m ∈ kahnReady preds remaining) ↔
            ((preds m).all (fun p => !(decide (p ∈ remaining))) = true) := by
          unfold kahnReady
          simp [List.mem_filter, hm]
        by_cases hc : (preds m).all (fun p => !(decide (p ∈ remaining))) = true
        · simp [this, hc]
        · simp [this, hc]
      have hstep1 : ((sortBatch le (kahnReady preds remaining) :: bs2).flatten).Perm
          (kahnReady preds remaining ++
            remaining.filter (fun m => !(decide (m ∈ kahnReady preds remaining)))) :=
        List.Perm.append (List.perm_insertionSort _ _) hperm2
      have hstep2 : (kahnReady preds remaining ++
          remaining.filter (fun m => !(decide (m ∈ kahnReady preds remaining)))).Perm
          remaining := by
        rw [hfeq]
        exact List.filter_append_perm _ remaining
      exact hstep1.trans hstep2

/-- The emitted batches contain no duplicates when the nodes do not. -/
theorem kahnBatches_nodup {preds : Migration → List Migration}
    {le : Migration → Migration → Bool} {fuel remaining bs}
    (h : kahnBatches preds le fuel remaining = some bs)
    (hnd : remaining.Nodup) : bs.flatten.Nodup :=
  (List.Perm.nodup_iff (kahnBatches_perm preds le fuel remaining bs h)).mpr hnd

/-- Every emitted batch is sorted by the tie-breaking order. -/
theorem kahnBatches_sorted (preds : Migration → List Migration)
    (le : Migration → Migration → Bool)
    (htot : ∀ a b, le a b = true ∨ le b a = true)
    (htrans : ∀ a b c, le a b = true → le b c = true → le a c = true) :
    ∀ fuel remaining bs, kahnBatches preds le fuel remaining = some bs →
      ∀ b ∈ bs, List.Sorted (fun a b => le a b = true) b := by
  intro fuel
  induction fuel with
  | zero =>
    intro remaining bs h b hb
    unfold kahnBatches at h
    cases remaining with
    | nil =>
      simp only [List.isEmpty_nil, if_true, Option.some.injEq] at h
      subst h
      cases hb
    | cons x xs => simp [List.isEmpty_cons] at h
  | succ fuel ih =>
    intro remaining bs h b hb
    by_cases hne : remaining = []
    · subst hne
      unfold kahnBatches at h
      simp only [List.isEmpty_nil, if_true, Option.some.injEq] at h
      subst h
      cases hb
    · obtain ⟨hready, bs2, h2, rfl⟩ := kahnBatches_succ_some hne h
      rcases List.mem_cons.mp hb with rfl | hb2
      · haveI : IsTotal Migration (fun a b => le a b = true) := ⟨htot⟩
        haveI : IsTrans Migration (fun a b => le a b = true) := ⟨htrans⟩
        exact List.sorted_insertionSort _ _
      · exact ih _ _ h2 b hb2

/-- With a topological numbering and enough fuel the Kahn sort succeeds. -/
theorem kahnBatches_isSome (preds : Migration → List Migration)
    (le : Migration → Migration → Bool) (rank : Migration → Int) :
    ∀ fuel remaining,
      (∀ m ∈ remaining, ∀ d ∈ preds m, rank d < rank m) →
      remaining.length ≤ fuel →
      (kahnBatches preds le fuel remaining).isSome := by
  intro fuel
  induction fuel with
  | zero =>
    intro remaining _ hlen
    have : remaining = [] := List.length_eq_zero.mp (Nat.le_zero.mp hlen)
    subst this
    simp [kahnBatches]
  | succ fuel ih =>
    intro remaining hrank hlen
    by_cases hne : remaining = []
    · subst hne
      simp [kahnBatches]
    · obtain ⟨mstar, hms⟩ : ∃ mstar, List.argmin rank remaining = some mstar := by
        match ham : List.argmin rank remaining with
        | some mstar => exact ⟨mstar, rfl⟩
        | none => exact absurd (List.argmin_eq_none.mp ham) hne
      have hmem : mstar ∈ remaining := List.argmin_mem hms
      have hminr : ∀ b ∈ remaining, ¬ rank b < rank mstar :=
        fun b hb => List.not_lt_of_mem_argmin hb hms
      have hmready : mstar ∈ kahnReady preds remaining := by
        unfold kahnReady
        rw [List.mem_filter]
        refine ⟨hmem, ?_⟩
        rw [List.all_eq_true]
        intro p hp
        by_cases hpin : p ∈ remaining
        · exact absurd (hrank mstar hmem p hp) (hminr p hpin)
        · simp [hpin]
      have hreadyne : kahnReady preds remaining ≠ [] :=
        List.ne_nil_of_mem hmready
      have hlt : (remaining.filter
          (fun m => !(decide (m ∈ kahnReady preds remaining)))).length <
          remaining.length := by
        rw [List.length_filter_lt_length_iff_exists]
        exact ⟨mstar, hmem, by simp [hmready]⟩
      have hih := ih (remaining.filter (fun m => !(decide (m ∈ kahnReady preds remaining))))
        (fun m hm d hd => hrank m (List.mem_of_mem_filter hm) d hd)
        (by omega)
      obtain ⟨bs2, h2⟩ := Option.isSome_iff_exists.mp hih
      unfold kahnBatches
      rw [if_neg (by simpa [List.isEmpty_iff] using hne),
        if_neg (by simpa [List.isEmpty_iff] using hreadyne), h2]
      rfl

/-- Each migration is emitted only after all of its predecessors that are
    among the nodes. -/
theorem kahnBatches_order (preds : Migration → List Migration)
    (le : Migration → Migration → Bool) :
    ∀ fuel remaining bs, kahnBatches preds le fuel remaining = some bs →
      remaining.Nodup →
      ∀ m d, m ∈ bs.flatten → d ∈ preds m → d ∈ remaining →
        bs.flatten.indexOf d < bs.flatten.indexOf m := by
  intro fuel
  induction fuel with
  | zero =>
    intro remaining bs h _ m d hm _ _
    unfold kahnBatches at h
    cases remaining with
    | nil =>
      simp only [List.isEmpty_nil, if_true, Option.some.injEq] at h
      subst h
      cases hm
    | cons x xs => simp [List.isEmpty_cons] at h
  | succ fuel ih =>
    intro remaining bs h hnd m d hm hd hdrem
    by_cases hne : remaining = []
    · subst hne
      unfold kahnBatches at h
      simp only [List.isEmpty_nil, if_true, Option.some.injEq] at h
      subst h
      cases hm
    · obtain ⟨hready, bs2, h2, rfl⟩ := kahnBatches_succ_some hne h
      have hsb : (sortBatch le (kahnReady preds remaining)).Perm
          (kahnReady preds remaining) := List.perm_insertionSort _ _
      have hperm2 := kahnBatches_perm preds le fuel _ bs2 h2
      have hnd2 : (remaining.filter
          (fun m => !(decide (m ∈ kahnReady preds remaining)))).Nodup :=
        hnd.filter _
      simp only [List.flatten_cons] at hm ⊢
      rcases List.mem_append.mp hm with hmsb | hmf2
      · exfalso
        have hmr : m ∈ kahnReady preds remaining := hsb.mem_iff.mp hmsb
        unfold kahnReady at hmr
        rw [List.mem_filter, List.all_eq_true] at hmr
        have := hmr.2 d hd
        simp only [Bool.not_eq_eq_eq_not, Bool.not_true, decide_eq_false_iff_not] at this
        exact this hdrem
      · have hmrem2 : m ∈ remaining.filter
            (fun m => !(decide (m ∈ kahnReady preds remaining))) :=
          hperm2.mem_iff.mp hmf2
        have hmnotready : m ∉ kahnReady preds remaining := by
          have := (List.mem_filter.mp hmrem2).2
          simpa using this
        have hmnotsb : m ∉ sortBatch le (kahnReady preds remaining) := by
          intro hcon
          exact hmnotready (hsb.mem_iff.mp hcon)
        by_cases hdready : d ∈ kahnReady preds remaining
        · have hdsb : d ∈ sortBatch le (kahnReady preds remaining) :=
            hsb.mem_iff.mpr hdready
          have h1 : (sortBatch le (kahnReady preds remaining) ++ bs2.flatten).indexOf d <
              (sortBatch le (kahnReady preds remaining)).length := by
            rw [List.indexOf_append_of_mem hdsb]
            exact List.indexOf_lt_length.mpr hdsb
          have h2i : (sortBatch le (kahnReady preds remaining) ++ bs2.flatten).indexOf m =
              (sortBatch le (kahnReady preds remaining)).length + bs2.flatten.indexOf m :=
            List.indexOf_append_of_not_mem hmnotsb
          omega
        · have hdrem2 : d ∈ remaining.filter
              (fun m => !(decide (m ∈ kahnReady preds remaining))) := by
            rw [List.mem_filter]
            exact ⟨hdrem, by simp [hdready]⟩
          have hdf2 : d ∈ bs2.flatten := hperm2.mem_iff.mpr hdrem2
          have hdnotsb : d ∉ sortBatch le (kahnReady preds remaining) := by
            intro hcon
            exact hdready (hsb.mem_iff.mp hcon)
          have hrec := ih _ bs2 h2 hnd2 m d hmf2 hd hdrem2
          rw [List.indexOf_append_of_not_mem hdnotsb,
            List.indexOf_append_of_not_mem hmnotsb]
          omega

/-- Full correctness package for one topological traversal direction. -/
theorem traversal_ok (preds : Migration → List Migration)
    (le : Migration → Migration → Bool) (univ : List Migration)
    (rank : Migration → Int)
    (htot : ∀ a b, le a b = true ∨ le b a = true)
    (htrans : ∀ a b c, le a b = true → le b c = true → le a c = true)
    (hU : ∀ m ∈ univ, ∀ d ∈ preds m, d ∈ univ)
    (hrank : ∀ m ∈ univ, ∀ d ∈ preds m, rank d < rank m)
    {S : List Migration} (hS : ∀ m ∈ S, m ∈ univ) :
    ∃ nodes bs, sorterNodes preds (univ.length + 1) S = some nodes ∧
      kahnBatches preds le nodes.length nodes = some bs ∧
      bs.flatten.Nodup ∧
      (∀ x, x ∈ bs.flatten ↔
        x ∈ S ∨ ∃ m ∈ S, Relation.TransGen (fun a b => b ∈ preds a) m x) ∧
      (∀ m ∈ bs.flatten, ∀ d ∈ preds m,
        bs.flatten.indexOf d < bs.flatten.indexOf m) ∧
      (∀ b ∈ bs, List.Sorted (fun a b => le a b = true) b) := by
  obtain ⟨nodes, hnodes⟩ := Option.isSome_iff_exists.mp
    (sorterNodes_isSome preds univ rank hU hrank hS)
  have hndnodes : nodes.Nodup := sorterNodes_nodup hnodes
  have hsubuniv := sorterNodes_sub_univ univ hU hS hnodes
  obtain ⟨bs, hkahn⟩ := Option.isSome_iff_exists.mp
    (kahnBatches_isSome preds le rank nodes.length nodes
      (fun m hm d hd => hrank m (hsubuniv m hm) d hd) (Nat.le_refl _))
  have hperm := kahnBatches_perm preds le nodes.length nodes bs hkahn
  refine ⟨nodes, bs, hnodes, hkahn, kahnBatches_nodup hkahn hndnodes, ?_, ?_, ?_⟩
  · intro x
    rw [hperm.mem_iff, sorterNodes_mem hnodes x]
    constructor
    · rintro (hx | ⟨m, hm, s, hf, hxs⟩)
      · exact Or.inl hx
      · exact Or.inr ⟨m, hm, recDeps_sound preds _ m s hf x hxs⟩
    · rintro (hx | ⟨m, hm, htg⟩)
      · exact Or.inl hx
      · obtain ⟨cls, hc, _⟩ := sorterNodes_shape hnodes
        obtain ⟨cl, hf, _⟩ := closureMany_some_forall hc m hm
        exact Or.inr ⟨m, hm, cl, hf, recDeps_complete preds _ m cl hf x htg⟩
  · intro m hm d hd
    exact kahnBatches_order preds le nodes.length nodes bs hkahn hndnodes m d hm hd
      (sorterNodes_closed hnodes m (hperm.mem_iff.mp hm) d hd)
  · exact kahnBatches_sorted preds le htot htrans nodes.length nodes bs hkahn

/-- Totality of the descending sort-key order. -/
theorem keyGE_total (a b : Migration) : keyGE a b = true ∨ keyGE b a = true := by
  unfold keyGE
  rcases keyLE_total a b with h | h
  · exact Or.inr h
  · exact Or.inl h

/-- Transitivity of the descending sort-key order. -/
theorem keyGE_trans {a b c : Migration}
    (hab : keyGE a b = true) (hbc : keyGE b c = true) : keyGE a c = true :=
  keyLE_trans hbc hab

/-- C2.  For every selection in an acyclic resolved dependency graph,
    `dependencies_of` succeeds and yields exactly the transitive forward
    closure of the selection (selection included), each migration at most
    once and only after all of its resolved dependencies, the ready
    frontiers being sorted ascending by the deterministic sort key
    `(created_at or datetime.min, repository name, migration id)`;
    `dependants_of` is symmetric over the reverse edges with the frontiers
    sorted descending. -/
theorem dependencies_and_dependants_topological (g : RepoGraph)
    (rank : Migration → Int) (hdc : DepsClosed g) (hrc : DependantsClosed g)
    (hsym : EdgesSymmetric g) (hrank : RankedAcyclic g rank)
    (S : List Migration) (hS : ∀ m ∈ S, m ∈ g.migrations) :
    (∃ bs : List (List Migration),
      dependenciesOf g S = .ok bs.flatten ∧
      bs.flatten.Nodup ∧
      (∀ x, x ∈ bs.flatten ↔
        x ∈ S ∨ ∃ m ∈ S, Relation.TransGen (depEdge g) m x) ∧
      (∀ m ∈ bs.flatten, ∀ d ∈ g.deps m,
        bs.flatten.indexOf d < bs.flatten.indexOf m) ∧
      (∀ b ∈ bs, List.Sorted (fun a b => keyLE a b = true) b)) ∧
    (∃ bs : List (List Migration),
      dependantsOf g S = .ok bs.flatten ∧
      bs.flatten.Nodup ∧
      (∀ x, x ∈ bs.flatten ↔
        x ∈ S ∨ ∃ m ∈ S, Relation.TransGen (dependantEdge g) m x) ∧
      (∀ m ∈ bs.flatten, ∀ d ∈ g.dependants m,
        bs.flatten.indexOf d < bs.flatten.indexOf m) ∧
      (∀ b ∈ bs, List.Sorted (fun a b => keyGE a b = true) b)) := by
  constructor
  · obtain ⟨nodes, bs, hnodes, hkahn, hnd, hmem, hord, hsorted⟩ :=
      traversal_ok g.deps keyLE g.migrations rank keyLE_total
        (fun a b c => keyLE_trans) hdc hrank hS
    refine ⟨bs, ?_, hnd, hmem, hord, hsorted⟩
    unfold dependenciesOf
    simp only [hnodes, hkahn]
  · have hrank2 : ∀ m ∈ g.migrations, ∀ d ∈ g.dependants m,
        (fun x => -rank x) d < (fun x => -rank x) m := by
      intro m hm d hd
      have hdU : d ∈ g.migrations := hrc m hm d hd
      have hmd : m ∈ g.deps d := (hsym d hdU m hm).mpr hd
      have := hrank d hdU m hmd
      show -rank d < -rank m
      omega
    obtain ⟨nodes, bs, hnodes, hkahn, hnd, hmem, hord, hsorted⟩ :=
      traversal_ok g.dependants keyGE g.migrations (fun x => -rank x) keyGE_total
        (fun a b c => keyGE_trans) hrc hrank2 hS
    refine ⟨bs, ?_, hnd, hmem, hord, hsorted⟩
    unfold dependantsOf
    simp only [hnodes, hkahn]

/-- C2 (witness): the linear three-migration graph, selecting the top
    migration for `dependencies_of` and the bottom one for `dependants_of`. -/
theorem dependencies_and_dependants_topological_witness :
    (∃ bs : List (List Migration),
      dependenciesOf gW [wC] = .ok bs.flatten ∧
      bs.flatten.Nodup ∧
      (∀ x, x ∈ bs.flatten ↔
        x ∈ [wC] ∨ ∃ m ∈ [wC], Relation.TransGen (depEdge gW) m x) ∧
      (∀ m ∈ bs.flatten, ∀ d ∈ gW.deps m,
        bs.flatten.indexOf d < bs.flatten.indexOf m) ∧
      (∀ b ∈ bs, List.Sorted (fun a b => keyLE a b = true) b)) ∧
    (∃ bs : List (List Migration),
      dependantsOf gW [wC] = .ok bs.flatten ∧
      bs.flatten.Nodup ∧
      (∀ x, x ∈ bs.flatten ↔
        x ∈ [wC] ∨ ∃ m ∈ [wC], Relation.TransGen (dependantEdge gW) m x) ∧
      (∀ m ∈ bs.flatten, ∀ d ∈ gW.dependants m,
        bs.flatten.indexOf d < bs.flatten.indexOf m) ∧
      (∀ b ∈ bs, List.Sorted (fun a b => keyGE a b = true) b)) :=
  dependencies_and_dependants_topological gW rankW
    (by unfold DepsClosed; decide) (by unfold DependantsClosed; decide)
    (by unfold EdgesSymmetric; decide) (by unfold RankedAcyclic; decide)
    [wC] (by decide)

/-- C8 (amended).  A cycle reachable from the selection along the dependency
    edges makes `dependencies_of` fail before yielding anything (Python's
    `recursive_dependencies` recursion never terminates and dies with
    `RecursionError` at preparation); symmetrically, a cycle reachable along
    the dependant edges makes `dependants_of` fail.  A cycle only reachable
    in one direction leaves the other traversal untouched. -/
theorem cyclic_selection_traversals_fail (g : RepoGraph) (S : List Migration) :
    ((∃ m ∈ S, reachesCycle g.deps m) → ∃ e, dependenciesOf g S = .error e) ∧
    ((∃ m ∈ S, reachesCycle g.dependants m) → ∃ e, dependantsOf g S = .error e) := by
  constructor
  · rintro ⟨m, hm, hc⟩
    refine ⟨"RecursionError: cycle while collecting recursive dependencies", ?_⟩
    unfold dependenciesOf
    simp only [sorterNodes_none_of_cycle hm hc]
  · rintro ⟨m, hm, hc⟩
    refine ⟨"RecursionError: cycle while collecting recursive dependants", ?_⟩
    unfold dependantsOf
    simp only [sorterNodes_none_of_cycle hm hc]

/-- C8 (amended, witness): selecting the migration `b` that lies on the
    two-cycle `b ⇄ c` makes both traversals fail. -/
theorem cyclic_selection_traversals_fail_witness :
    (∃ e, dependenciesOf gCyc [wB] = .error e) ∧
    (∃ e, dependantsOf gCyc [wB] = .error e) := by
  have hdep : reachesCycle gCyc.deps wB :=
    ⟨wB, Relation.ReflTransGen.refl,
      Relation.TransGen.head (b := wC) (by decide)
        (Relation.TransGen.single (by decide))⟩
  have hdnt : reachesCycle gCyc.dependants wB :=
    ⟨wB, Relation.ReflTransGen.refl,
      Relation.TransGen.head (b := wC) (by decide)
        (Relation.TransGen.single (by decide))⟩
  exact ⟨(cyclic_selection_traversals_fail gCyc [wB]).1 ⟨wB, by decide, hdep⟩,
    (cyclic_selection_traversals_fail gCyc [wB]).2 ⟨wB, by decide, hdnt⟩⟩

/-- C8 (counterexample).  The claim says a cycle makes both traversals fail,
    but a cycle reachable only along the dependency edges does not disturb
    `dependants_of`: in the graph `a → b ⇄ c`, selecting `a` fails
    `dependencies_of` yet `dependants_of` succeeds and yields `a`. -/
theorem cyclic_graph_dependants_can_succeed :
    (∃ e, dependenciesOf gCyc [wA] = .error e) ∧
    dependantsOf gCyc [wA] = .ok [wA] := by
  constructor
  · exact ⟨"RecursionError: cycle while collecting recursive dependencies", rfl⟩
  · rfl

/-- Search in an appended list looks left first. -/
theorem find?_append_eq {α : Type} (p : α → Bool) :
    ∀ (l1 l2 : List α), (l1 ++ l2).find? p =
      match l1.find? p with
      | some a => some a
      | none => l2.find? p := by
  intro l1 l2
  induction l1 with
  | nil => simp
  | cons a l ih =>
    by_cases hp : p a = true
    · simp [List.find?_cons, hp]
    · rw [Bool.not_eq_true] at hp
      simp only [List.cons_append, List.find?_cons, hp]
      exact ih

/-- Mapping that preserves the predicate and fixes the matching elements
    leaves the search result unchanged. -/
theorem find?_map_congr {α : Type} (f : α → α) (p : α → Bool)
    (hp : ∀ a, p (f a) = p a) (hfix : ∀ a, p a = true → f a = a) :
    ∀ l : List α, (l.map f).find? p = l.find? p := by
  intro l
  induction l with
  | nil => rfl
  | cons a l ih =>
    by_cases hpa : p a = true
    · simp [List.find?_cons, hp a, hpa, hfix a hpa]
    · rw [Bool.not_eq_true] at hpa
      simp only [List.map_cons, List.find?_cons, hp a, hpa]
      exact ih

/-- Mapping that preserves the predicate maps the search result. -/
theorem find?_map_some {α : Type} (f : α → α) (p : α → Bool)
    (hp : ∀ a, p (f a) = p a) :
    ∀ (l : List α) (a : α), l.find? p = some a → (l.map f).find? p = some (f a) := by
  intro l
  induction l with
  | nil => intro a h; cases h
  | cons x l ih =>
    intro a h
    by_cases hpx : p x = true
    · rw [List.find?_cons_of_pos _ hpx] at h
      obtain rfl : x = a := by injection h
      rw [List.map_cons, List.find?_cons_of_pos _ (by rw [hp x]; exact hpx)]
    · rw [Bool.not_eq_true] at hpx
      rw [List.find?_cons_of_neg _ (by simp [hpx])] at h
      rw [List.map_cons, List.find?_cons_of_neg _ (by simp [hp x, hpx])]
      exact ih a h

/-- Filtering by a predicate implied by the search predicate does not change
    the search result. -/
theorem find?_filter_of_imp {α : Type} (p q : α → Bool)
    (h : ∀ a, p a = true → q a = true) :
    ∀ l : List α, (l.filter q).find? p = l.find? p := by
  intro l
  induction l with
  | nil => rfl
  | cons a l ih =>
    by_cases hq : q a = true
    · by_cases hpa : p a = true
      · simp [List.filter_cons, hq, List.find?_cons, hpa]
      · rw [Bool.not_eq_true] at hpa
        simp only [List.filter_cons, hq, if_true, List.find?_cons, hpa]
        exact ih
    · have hpa : p a = false := by
        by_contra hcon
        rw [Bool.not_eq_false] at hcon
        exact hq (h a hcon)
      simp only [List.filter_cons, if_neg hq, List.find?_cons, hpa]
      exact ih

/-- Filtering away everything the search predicate accepts empties the
    search. -/
theorem find?_filter_none {α : Type} (p q : α → Bool)
    (h : ∀ a, p a = true → q a = false) :
    ∀ l : List α, (l.filter q).find? p = none := by
  intro l
  induction l with
  | nil => rfl
  | cons a l ih =>
    by_cases hq : q a = true
    · have hpa : p a = false := by
        by_contra hcon
        rw [Bool.not_eq_false] at hcon
        rw [h a hcon] at hq
        cases hq
      simp only [List.filter_cons, hq, if_true, List.find?_cons, hpa]
      exact ih
    · simp only [List.filter_cons, if_neg hq]
      exact ih

/-- A successful application lookup returns a stored row with the searched
    key. -/
theorem lookupApplication_some {st : TargetState} {id : CompositeId}
    {a : MigrationApplication} (h : lookupApplication st id = some a) :
    a ∈ st ∧ a.id = id := by
  refine ⟨List.mem_of_find?_eq_some h, ?_⟩
  have := List.find?_some h
  simpa using this

/-- Upserting a row makes it the row stored under its key. -/
theorem upsert_lookup_self (st : TargetState) (row : MigrationApplication) :
    lookupApplication (upsertApplication st row) row.id = some row := by
  unfold upsertApplication lookupApplication
  by_cases hany : st.any (fun a => decide (a.id = row.id)) = true
  · rw [if_pos hany]
    have hex : ∃ a, st.find? (fun a => decide (a.id = row.id)) = some a := by
      rw [← Option.isSome_iff_exists, List.find?_isSome]
      obtain ⟨x, hx, hpx⟩ := List.any_eq_true.mp hany
      exact ⟨x, hx, hpx⟩
    obtain ⟨a0, ha0⟩ := hex
    have hpa0 : a0.id = row.id := by simpa using List.find?_some ha0
    have hp : ∀ a : MigrationApplication,
        (decide ((if a.id = row.id then row else a).id = row.id)) =
          decide (a.id = row.id) := by
      intro a
      by_cases ha : a.id = row.id <;> simp [ha]
    have hres := find?_map_some _ _ hp st a0 ha0
    rw [hres, if_pos hpa0]
  · rw [if_neg hany]
    rw [find?_append_eq]
    have hnone : st.find? (fun a => decide (a.id = row.id)) = none := by
      rw [List.find?_eq_none]
      intro x hx
      simp only [decide_eq_true_eq]
      intro hcon
      exact hany (List.any_eq_true.mpr ⟨x, hx, by simp [hcon]⟩)
    rw [hnone]
    simp [List.find?_cons]

/-- Upserting a row leaves all other keys untouched. -/
theorem upsert_lookup_other (st : TargetState) (row : MigrationApplication)
    {id : CompositeId} (hne : id ≠ row.id) :
    lookupApplication (upsertApplication st row) id = lookupApplication st id := by
  unfold upsertApplication lookupApplication
  by_cases hany : st.any (fun a => decide (a.id = row.id)) = true
  · rw [if_pos hany]
    apply find?_map_congr
    · intro a
      by_cases ha : a.id = row.id
      · simp [ha]
      · simp [ha]
    · intro a ha
      simp only [decide_eq_true_eq] at ha
      have hanr : a.id ≠ row.id := by rw [ha]; exact hne
      simp [hanr]
  · rw [if_neg hany]
    rw [find?_append_eq]
    match hf : st.find? (fun a => decide (a.id = id)) with
    | some a => rw [hf]
    | none =>
      have hrow : decide (row.id = id) = false :=
        decide_eq_false (fun h => hne h.symm)
      rw [hf]
      simp [List.find?_cons, hrow]

/-- Upserting preserves the uniqueness of the composite keys. -/
theorem upsert_nodupKeys {st : TargetState} (row : MigrationApplication)
    (h : NodupKeys st) : NodupKeys (upsertApplication st row) := by
  unfold NodupKeys upsertApplication
  by_cases hany : st.any (fun a => decide (a.id = row.id)) = true
  · rw [if_pos hany]
    have hids : (st.map (fun a => if a.id = row.id then row else a)).map
        MigrationApplication.id = st.map MigrationApplication.id := by
      rw [List.map_map]
      apply List.map_congr_left
      intro a _
      by_cases ha : a.id = row.id
      · simp [ha]
      · simp [ha]
    rw [hids]
    exact h
  · rw [if_neg hany]
    rw [List.map_append]
    rw [List.nodup_append]
    refine ⟨h, List.nodup_singleton _, ?_⟩
    intro x hx hy
    simp only [List.map_cons, List.map_nil, List.mem_singleton] at hy
    obtain ⟨a, ha, hid⟩ := List.mem_map.mp hx
    exact hany (List.any_eq_true.mpr ⟨a, ha, by simp [hid, hy]⟩)

/-- Deleting a key answers lookups as expected: the deleted key disappears,
    other keys are untouched. -/
theorem down_lookup (st : TargetState) (m : Migration) (id : CompositeId) :
    lookupApplication (targetDownApply st m) id =
      if id = m.id then none else lookupApplication st id := by
  unfold targetDownApply lookupApplication
  by_cases hid : id = m.id
  · rw [if_pos hid]
    subst hid
    apply find?_filter_none
    intro a ha
    simp only [decide_eq_true_eq] at ha
    simp [ha]
  · rw [if_neg hid]
    apply find?_filter_of_imp
    intro a ha
    simp only [decide_eq_true_eq] at ha
    have : a.id ≠ m.id := by rw [ha]; exact hid
    simp [this]

/-- Deleting preserves key uniqueness. -/
theorem down_nodupKeys {st : TargetState} (m : Migration)
    (h : NodupKeys st) : NodupKeys (targetDownApply st m) := by
  unfold NodupKeys targetDownApply
  exact ((List.filter_sublist st).map MigrationApplication.id).nodup h

/-- Fixing hashes and status preserves key uniqueness. -/
theorem fix_nodupKeys {st : TargetState} (m : Migration) (isDep : Bool)
    (h : NodupKeys st) : NodupKeys (fixHashesAndStatus st m isDep) := by
  unfold NodupKeys fixHashesAndStatus
  have hids : (st.map (fun a =>
      if a.id = m.id ∧
          (a.up_script_sha256 ≠ m.up_script_sha256 ∨
            a.reformatted_up_script_sha256 ≠ some m.reformatted_up_script_sha256 ∨
            a.is_dependency ≠ isDep) then
        { a with
            up_script_sha256 := m.up_script_sha256
            reformatted_up_script_sha256 := some m.reformatted_up_script_sha256
            is_dependency := isDep }
      else a)).map MigrationApplication.id = st.map MigrationApplication.id := by
    rw [List.map_map]
    apply List.map_congr_left
    intro a _
    by_cases hc : a.id = m.id ∧
        (a.up_script_sha256 ≠ m.up_script_sha256 ∨
          a.reformatted_up_script_sha256 ≠ some m.reformatted_up_script_sha256 ∨
          a.is_dependency ≠ isDep)
    · simp only [Function.comp_apply, if_pos hc]
      exact hc.1.trans hc.1.symm ▸ rfl
    · simp [hc]
  rw [hids]
  exact h

/-- Fixing hashes leaves other keys untouched. -/
theorem fix_lookup_other (st : TargetState) (m : Migration) (isDep : Bool)
    {id : CompositeId} (hne : id ≠ m.id) :
    lookupApplication (fixHashesAndStatus st m isDep) id = lookupApplication st id := by
  unfold fixHashesAndStatus lookupApplication
  apply find?_map_congr
  · intro a
    by_cases hc : a.id = m.id ∧
        (a.up_script_sha256 ≠ m.up_script_sha256 ∨
          a.reformatted_up_script_sha256 ≠ some m.reformatted_up_script_sha256 ∨
          a.is_dependency ≠ isDep)
    · simp only [if_pos hc]
      have : ({ a with
          up_script_sha256 := m.up_script_sha256
          reformatted_up_script_sha256 := some m.reformatted_up_script_sha256
          is_dependency := isDep } : MigrationApplication).id = a.id := rfl
      rw [this]
    · rw [if_neg hc]
  · intro a ha
    simp only [decide_eq_true_eq] at ha
    have : ¬ (a.id = m.id ∧
        (a.up_script_sha256 ≠ m.up_script_sha256 ∨
          a.reformatted_up_script_sha256 ≠ some m.reformatted_up_script_sha256 ∨
          a.is_dependency ≠ isDep)) := by
      rintro ⟨h1, -⟩
      exact hne (ha ▸ h1)
    rw [if_neg this]

/-- After fixing hashes, the row stored under the migration's key carries
    the migration's hashes and the requested dependency flag. -/
theorem fix_lookup_self (st : TargetState) (m : Migration) (isDep : Bool)
    {a : MigrationApplication} (ha : lookupApplication st m.id = some a) :
    ∃ r, lookupApplication (fixHashesAndStatus st m isDep) m.id = some r ∧
      r.up_script_sha256 = m.up_script_sha256 ∧
      r.reformatted_up_script_sha256 = some m.reformatted_up_script_sha256 ∧
      r.is_dependency = isDep := by
  have haid : a.id = m.id := (lookupApplication_some ha).2
  unfold fixHashesAndStatus lookupApplication
  have hp : ∀ x : MigrationApplication,
      (decide ((if x.id = m.id ∧
          (x.up_script_sha256 ≠ m.up_script_sha256 ∨
            x.reformatted_up_script_sha256 ≠ some m.reformatted_up_script_sha256 ∨
            x.is_dependency ≠ isDep) then
        { x with
            up_script_sha256 := m.up_script_sha256
            reformatted_up_script_sha256 := some m.reformatted_up_script_sha256
            is_dependency := isDep }
      else x).id = m.id)) = decide (x.id = m.id) := by
    intro x
    by_cases hc : x.id = m.id ∧
        (x.up_script_sha256 ≠ m.up_script_sha256 ∨
          x.reformatted_up_script_sha256 ≠ some m.reformatted_up_script_sha256 ∨
          x.is_dependency ≠ isDep)
    · rw [if_pos hc]
      rfl
    · rw [if_neg hc]
  have hres := find?_map_some _ _ hp st a ha
  refine ⟨_, hres, ?_, ?_, ?_⟩ <;>
    by_cases hc : a.id = m.id ∧
        (a.up_script_sha256 ≠ m.up_script_sha256 ∨
          a.reformatted_up_script_sha256 ≠ some m.reformatted_up_script_sha256 ∨
          a.is_dependency ≠ isDep) <;>
    simp only [if_pos, if_neg, hc] <;>
    first
      | rfl
      | (push_neg at hc
         rcases hc haid with ⟨h1, h2, h3⟩
         first | exact h1 | exact h2 | exact h3)

/-- A present key is held by exactly one row when keys are unique. -/
theorem countKey_eq_one {st : TargetState} {id : CompositeId}
    (hkeys : NodupKeys st) {a : MigrationApplication}
    (ha : lookupApplication st id = some a) : countKey st id = 1 := by
  unfold countKey
  unfold NodupKeys at hkeys
  unfold lookupApplication at ha
  induction st with
  | nil => cases ha
  | cons x l ih =>
    by_cases hx : x.id = id
    · have hxl : ∀ y ∈ l, y.id ≠ id := by
        intro y hy hcon
        have : x.id ∈ l.map MigrationApplication.id :=
          hx ▸ hcon ▸ List.mem_map_of_mem MigrationApplication.id hy
        simp only [List.map_cons, List.nodup_cons] at hkeys
        exact hkeys.1 this
      have hfl : l.filter (fun a => decide (a.id = id)) = [] := by
        rw [List.filter_eq_nil_iff]
        intro y hy
        simp only [decide_eq_true_eq]
        exact hxl y hy
      simp [List.filter_cons, hx, hfl]
    · simp only [List.filter_cons, decide_eq_true_eq]
      rw [if_neg hx]
      rw [List.find?_cons_of_neg _ (by simp [hx])] at ha
      simp only [List.map_cons, List.nodup_cons] at hkeys
      exact ih hkeys.2 ha

/-- Characterization of the stored dependency flag of the `up` loop:
    it is false exactly when the migration is explicit, that is chosen or
    previously applied not-as-a-dependency, unless `--as-dependency` forces
    a chosen migration to be recorded as a dependency. -/
theorem upIsDependency_false_iff (st0 : TargetState) (chosen : List Migration)
    (asDep : Bool) (m : Migration) :
    upIsDependency st0 chosen asDep m = false ↔
      ((m ∈ chosen ∨ ∃ a, lookupApplication st0 m.id = some a ∧
          a.is_dependency = false) ∧
        ¬(asDep = true ∧ m ∈ chosen)) := by
  unfold upIsDependency
  match ha : lookupApplication st0 m.id with
  | none =>
    by_cases hd : asDep = true <;> by_cases hm : m ∈ chosen <;>
      simp [hd, hm]
  | some a0 =>
    by_cases hd : asDep = true <;> by_cases hm : m ∈ chosen <;>
      by_cases hdep : a0.is_dependency = true <;>
      simp [hd, hm, hdep]

/-- The row stored by `PostgreSqlTarget.up` under the migration's key. -/
theorem targetUp_lookup_self (st : TargetState) (m : Migration) (asDep : Bool)
    (now : Nat) (user : String) :
    ∃ r, lookupApplication (targetUpApply st m asDep now user) m.id = some r ∧
      r.up_script_sha256 = m.up_script_sha256 ∧
      r.reformatted_up_script_sha256 = some m.reformatted_up_script_sha256 ∧
      r.is_dependency = asDep := by
  unfold targetUpApply
  exact ⟨_, upsert_lookup_self st _, rfl, rfl, rfl⟩

/-- `PostgreSqlTarget.up` leaves other keys untouched. -/
theorem targetUp_lookup_other (st : TargetState) (m : Migration) (asDep : Bool)
    (now : Nat) (user : String) {id : CompositeId} (hne : id ≠ m.id) :
    lookupApplication (targetUpApply st m asDep now user) id =
      lookupApplication st id := by
  unfold targetUpApply
  exact upsert_lookup_other st _ hne

/-- `PostgreSqlTarget.up` preserves key uniqueness. -/
theorem targetUp_nodupKeys (st : TargetState) (m : Migration) (asDep : Bool)
    (now : Nat) (user : String) (h : NodupKeys st) :
    NodupKeys (targetUpApply st m asDep now user) :=
  upsert_nodupKeys _ h

/-- One successful `up` step: other keys are untouched, key uniqueness is
    preserved, and the plan element's row carries its hashes and computed
    dependency flag. -/
theorem upStep_ok {st0 : TargetState} {chosen : List Migration} {asDep : Bool}
    {confirm : Migration → Bool} {now : Nat} {user : String}
    {st : TargetState} {m : Migration} {s2 : TargetState}
    (h : upStep st0 chosen asDep confirm now user st m = .ok s2)
    (hcur : lookupApplication st m.id = lookupApplication st0 m.id) :
    (∀ id, id ≠ m.id → lookupApplication s2 id = lookupApplication st id) ∧
    (NodupKeys st → NodupKeys s2) ∧
    ∃ r, lookupApplication s2 m.id = some r ∧
      r.up_script_sha256 = m.up_script_sha256 ∧
      r.reformatted_up_script_sha256 = some m.reformatted_up_script_sha256 ∧
      r.is_dependency = upIsDependency st0 chosen asDep m := by
  unfold upStep at h
  match ha : lookupApplication st0 m.id with
  | none =>
    rw [ha] at h
    simp only [Except.ok.injEq] at h
    subst h
    exact ⟨fun id hid => targetUp_lookup_other st m _ now user hid,
      targetUp_nodupKeys st m _ now user,
      targetUp_lookup_self st m _ now user⟩
  | some a0 =>
    rw [ha] at h
    dsimp only at h
    by_cases hmatch : a0.matches m = true
    · rw [if_pos hmatch] at h
      simp only [Except.ok.injEq] at h
      subst h
      exact ⟨fun id hid => fix_lookup_other st m _ hid,
        fix_nodupKeys m _,
        fix_lookup_self st m _ (hcur.trans ha)⟩
    · rw [if_neg hmatch] at h
      by_cases hidem : m.idempotent = true
      · rw [if_pos hidem] at h
        by_cases hconf : confirm m = true
        · rw [if_pos hconf] at h
          simp only [Except.ok.injEq] at h
          subst h
          exact ⟨fun id hid => targetUp_lookup_other st m _ now user hid,
            targetUp_nodupKeys st m _ now user,
            targetUp_lookup_self st m _ now user⟩
        · rw [if_neg hconf] at h
          cases h
      · rw [if_neg hidem] at h
        cases h

/-- The `up` loop over a whole plan: key uniqueness is preserved, keys
    outside the plan are untouched, and every plan element ends up with its
    hashes and computed dependency flag stored. -/
theorem upFold_spec (st0 : TargetState) (chosen : List Migration) (asDep : Bool)
    (confirm : Migration → Bool) (now : Nat) (user : String) :
    ∀ (plan : List Migration) (st st2 : TargetState),
      List.foldlM (upStep st0 chosen asDep confirm now user) st plan = .ok st2 →
      NodupKeys st →
      (plan.map Migration.id).Nodup →
      (∀ m ∈ plan, lookupApplication st m.id = lookupApplication st0 m.id) →
      NodupKeys st2 ∧
      (∀ id, (∀ m ∈ plan, id ≠ m.id) →
        lookupApplication st2 id = lookupApplication st id) ∧
      (∀ m ∈ plan, ∃ r, lookupApplication st2 m.id = some r ∧
        r.up_script_sha256 = m.up_script_sha256 ∧
        r.reformatted_up_script_sha256 = some m.reformatted_up_script_sha256 ∧
        r.is_dependency = upIsDependency st0 chosen asDep m) := by
  intro plan
  induction plan with
  | nil =>
    intro st st2 h hk _ _
    simp only [List.foldlM_nil, pure, Except.pure, Except.ok.injEq] at h
    subst h
    exact ⟨hk, fun _ _ => rfl, fun m hm => absurd hm (List.not_mem_nil m)⟩
  | cons m rest ih =>
    intro st st2 h hk hnd hcur
    rw [List.foldlM_cons] at h
    match h1 : upStep st0 chosen asDep confirm now user st m with
    | .error e =>
      rw [h1] at h
      cases h
    | .ok s1 =>
      rw [h1] at h
      simp only [Bind.bind, Except.bind] at h
      obtain ⟨hframe1, hk1, r, hr, hru, hrr, hrd⟩ :=
        upStep_ok h1 (hcur m (List.mem_cons_self _ _))
      simp only [List.map_cons, List.nodup_cons] at hnd
      have hmid : ∀ m2 ∈ rest, m.id ≠ m2.id := by
        intro m2 hm2 hcon
        exact hnd.1 (hcon ▸ List.mem_map_of_mem Migration.id hm2)
      have hcur1 : ∀ m2 ∈ rest, lookupApplication s1 m2.id =
          lookupApplication st0 m2.id := by
        intro m2 hm2
        rw [hframe1 m2.id (fun hcon => hmid m2 hm2 hcon.symm)]
        exact hcur m2 (List.mem_cons_of_mem _ hm2)
      obtain ⟨hk2, hframe2, hrows⟩ := ih s1 st2 h (hk1 hk) hnd.2 hcur1
      refine ⟨hk2, ?_, ?_⟩
      · intro id hid
        rw [hframe2 id (fun m2 hm2 => hid m2 (List.mem_cons_of_mem _ hm2)),
          hframe1 id (hid m (List.mem_cons_self _ _))]
      · intro m2 hm2
        rcases List.mem_cons.mp hm2 with rfl | hm2r
        · refine ⟨r, ?_, hru, hrr, hrd⟩
          rw [hframe2 m2.id (fun m3 hm3 => hmid m3 hm3), hr]
        · exact hrows m2 hm2r

/-- Shape of a successful `dependencies_of` run. -/
theorem dependenciesOf_ok_shape {g : RepoGraph} {S L : List Migration}
    (h : dependenciesOf g S = .ok L) :
    ∃ nodes bs, sorterNodes g.deps (g.migrations.length + 1) S = some nodes ∧
      kahnBatches g.deps keyLE nodes.length nodes = some bs ∧ L = bs.flatten := by
  unfold dependenciesOf at h
  match hn : sorterNodes g.deps (g.migrations.length + 1) S with
  | none => rw [hn] at h; cases h
  | some nodes =>
    rw [hn] at h
    dsimp only at h
    match hb : kahnBatches g.deps keyLE nodes.length nodes with
    | none => rw [hb] at h; cases h
    | some bs =>
      rw [hb] at h
      simp only [Except.ok.injEq] at h
      exact ⟨nodes, bs, rfl, hb, h.symm⟩

/-- A successful `dependencies_of` output is a permutation of its node
    set. -/
theorem dependenciesOf_ok_perm {g : RepoGraph} {S L : List Migration}
    (h : dependenciesOf g S = .ok L) :
    ∃ nodes, sorterNodes g.deps (g.migrations.length + 1) S = some nodes ∧
      L.Perm nodes := by
  obtain ⟨nodes, bs, hn, hb, rfl⟩ := dependenciesOf_ok_shape h
  exact ⟨nodes, hn, kahnBatches_perm _ _ _ _ _ hb⟩

/-- A successful `dependencies_of` output has no duplicates. -/
theorem dependenciesOf_ok_nodup {g : RepoGraph} {S L : List Migration}
    (h : dependenciesOf g S = .ok L) : L.Nodup := by
  obtain ⟨nodes, hn, hperm⟩ := dependenciesOf_ok_perm h
  exact hperm.nodup_iff.mpr (sorterNodes_nodup hn)

/-- A successful `dependencies_of` output contains the whole selection. -/
theorem dependenciesOf_ok_sup {g : RepoGraph} {S L : List Migration}
    (h : dependenciesOf g S = .ok L) : ∀ m ∈ S, m ∈ L := by
  obtain ⟨nodes, hn, hperm⟩ := dependenciesOf_ok_perm h
  intro m hm
  exact hperm.mem_iff.mpr (sorterNodes_sub_S hn m hm)

/-- A successful `dependencies_of` output stays among the loaded
    migrations. -/
theorem dependenciesOf_ok_univ {g : RepoGraph} {S L : List Migration}
    (hdc : DepsClosed g) (hS : ∀ m ∈ S, m ∈ g.migrations)
    (h : dependenciesOf g S = .ok L) : ∀ m ∈ L, m ∈ g.migrations := by
  obtain ⟨nodes, hn, hperm⟩ := dependenciesOf_ok_perm h
  intro m hm
  exact sorterNodes_sub_univ g.migrations hdc hS hn m (hperm.mem_iff.mp hm)

/-- Mirror of `dependenciesOf_ok_shape` for `dependants_of`. -/
theorem dependantsOf_ok_shape {g : RepoGraph} {S L : List Migration}
    (h : dependantsOf g S = .ok L) :
    ∃ nodes bs, sorterNodes g.dependants (g.migrations.length + 1) S = some nodes ∧
      kahnBatches g.dependants keyGE nodes.length nodes = some bs ∧ L = bs.flatten := by
  unfold dependantsOf at h
  match hn : sorterNodes g.dependants (g.migrations.length + 1) S with
  | none => rw [hn] at h; cases h
  | some nodes =>
    rw [hn] at h
    dsimp only at h
    match hb : kahnBatches g.dependants keyGE nodes.length nodes with
    | none => rw [hb] at h; cases h
    | some bs =>
      rw [hb] at h
      simp only [Except.ok.injEq] at h
      exact ⟨nodes, bs, rfl, hb, h.symm⟩

/-- A successful `dependants_of` output is a permutation of its node set. -/
theorem dependantsOf_ok_perm {g : RepoGraph} {S L : List Migration}
    (h : dependantsOf g S = .ok L) :
    ∃ nodes, sorterNodes g.dependants (g.migrations.length + 1) S = some nodes ∧
      L.Perm nodes := by
  obtain ⟨nodes, bs, hn, hb, rfl⟩ := dependantsOf_ok_shape h
  exact ⟨nodes, hn, kahnBatches_perm _ _ _ _ _ hb⟩

/-- A successful `dependants_of` output has no duplicates. -/
theorem dependantsOf_ok_nodup {g : RepoGraph} {S L : List Migration}
    (h : dependantsOf g S = .ok L) : L.Nodup := by
  obtain ⟨nodes, hn, hperm⟩ := dependantsOf_ok_perm h
  exact hperm.nodup_iff.mpr (sorterNodes_nodup hn)

/-- A successful `dependants_of` output stays among the loaded migrations. -/
theorem dependantsOf_ok_univ {g : RepoGraph} {S L : List Migration}
    (hrc : DependantsClosed g) (hS : ∀ m ∈ S, m ∈ g.migrations)
    (h : dependantsOf g S = .ok L) : ∀ m ∈ L, m ∈ g.migrations := by
  obtain ⟨nodes, hn, hperm⟩ := dependantsOf_ok_perm h
  intro m hm
  exact sorterNodes_sub_univ g.migrations hrc hS hn m (hperm.mem_iff.mp hm)

/-- C3.  After a successful `up` over the plan `dependencies_of(chosen)`,
    the applied-migrations state holds exactly one row per plan element with
    that element's raw and canonical hashes, and the row's `is_dependency`
    is false exactly when the element is explicit: chosen, or previously
    applied and not recorded as a dependency, except that `--as-dependency`
    forces chosen migrations to be recorded as dependencies. -/
theorem up_command_applies_plan (g : RepoGraph) (st : TargetState)
    (chosen : List Migration) (asDep : Bool) (confirm : Migration → Bool)
    (now : Nat) (user : String) (st2 : TargetState)
    (hdc : DepsClosed g) (hinj : IdsInjective g) (hkeys : NodupKeys st)
    (hch : ∀ m ∈ chosen, m ∈ g.migrations)
    (hrun : upCommand g st chosen asDep confirm now user = .ok st2) :
    ∃ plan, dependenciesOf g chosen = .ok plan ∧
      ∀ m ∈ plan,
        countKey st2 m.id = 1 ∧
        ∃ r, lookupApplication st2 m.id = some r ∧
          r.up_script_sha256 = m.up_script_sha256 ∧
          r.reformatted_up_script_sha256 = some m.reformatted_up_script_sha256 ∧
          (r.is_dependency = false ↔
            ((m ∈ chosen ∨ ∃ a, lookupApplication st m.id = some a ∧
                a.is_dependency = false) ∧
              ¬(asDep = true ∧ m ∈ chosen))) := by
  unfold upCommand at hrun
  match hplan : dependenciesOf g chosen with
  | .error e => rw [hplan] at hrun; cases hrun
  | .ok plan =>
    rw [hplan] at hrun
    dsimp only at hrun
    have hnd : plan.Nodup := dependenciesOf_ok_nodup hplan
    have huniv := dependenciesOf_ok_univ hdc hch hplan
    have hids : (plan.map Migration.id).Nodup := by
      refine hnd.map_on ?_
      intro x hx y hy hxy
      exact hinj x (huniv x hx) y (huniv y hy) hxy
    obtain ⟨hk2, _, hrows⟩ := upFold_spec st chosen asDep confirm now user
      plan st st2 hrun hkeys hids (fun m _ => rfl)
    refine ⟨plan, rfl, ?_⟩
    intro m hm
    obtain ⟨r, hr, hru, hrr, hrd⟩ := hrows m hm
    refine ⟨countKey_eq_one hk2 hr, r, hr, hru, hrr, ?_⟩
    rw [hrd]
    exact upIsDependency_false_iff st chosen asDep m

/-- Expanding the empty selection yields the empty plan. -/
theorem dependenciesOf_nil (g : RepoGraph) : dependenciesOf g [] = .ok [] := rfl

/-- Membership in the installed-migrations join. -/
theorem installed_mem {g : RepoGraph} {st : TargetState} {b : Bool} {m : Migration} :
    m ∈ installedMigrations g st b ↔
      ∃ a ∈ st, g.migrations.find? (fun m2 => decide (m2.id = a.id)) = some m ∧
        (!a.is_dependency || b) = true := by
  unfold installedMigrations withMigrations
  rw [List.mem_filterMap]
  constructor
  · rintro ⟨p, hp, hF⟩
    obtain ⟨a, ha, rfl⟩ := List.mem_map.mp hp
    match hfind : g.migrations.find? (fun m2 => decide (m2.id = a.id)) with
    | some m2 =>
      rw [hfind] at hF
      dsimp only at hF
      by_cases hc : (!a.is_dependency || b) = true
      · rw [if_pos hc] at hF
        cases hF
        exact ⟨a, ha, hfind, hc⟩
      · rw [if_neg hc] at hF
        cases hF
    | none => rw [hfind] at hF; cases hF
  · rintro ⟨a, ha, hfind, hc⟩
    refine ⟨(a, g.migrations.find? (fun m2 => decide (m2.id = a.id))),
      List.mem_map_of_mem _ ha, ?_⟩
    rw [hfind]
    dsimp only
    rw [if_pos hc]

/-- Shape of a successful prune run. -/
theorem prune_ok_shape {g : RepoGraph} {st : TargetState} {X : List Migration}
    {st2 : TargetState} (h : prune g st X = .ok st2) :
    ∃ order, dependenciesOf g (danglingMigrations g st X) = .ok order ∧
      st2 = ((order.filter
        (fun m => decide (m ∈ danglingMigrations g st X))).reverse).foldl
          targetDownApply st := by
  unfold prune at h
  dsimp only at h
  match hd : dependenciesOf g (danglingMigrations g st X) with
  | .error e => rw [hd] at h; cases h
  | .ok order =>
    rw [hd] at h
    simp only [Except.ok.injEq] at h
    exact ⟨order, rfl, h.symm⟩

/-- Folding `down` over a list of migrations deletes exactly their keys. -/
theorem foldl_down_eq :
    ∀ (ms : List Migration) (st : TargetState),
      ms.foldl targetDownApply st =
        st.filter (fun a => !(ms.any (fun m => decide (a.id = m.id)))) := by
  intro ms
  induction ms with
  | nil =>
    intro st
    simp
  | cons m ms ih =>
    intro st
    rw [List.foldl_cons, ih]
    unfold targetDownApply
    rw [List.filter_filter]
    apply List.filter_congr
    intro a _
    simp only [List.any_cons, Bool.not_or]
    rw [Bool.and_comm]

/-- Row-level description of the state a successful prune leaves behind:
    exactly the rows whose key is not the key of a dangling migration. -/
theorem prune_ok_mem {g : RepoGraph} {st : TargetState} {X : List Migration}
    {st2 : TargetState} (h : prune g st X = .ok st2) :
    ∀ a, a ∈ st2 ↔ a ∈ st ∧
      ¬ ∃ m ∈ danglingMigrations g st X, a.id = m.id := by
  obtain ⟨order, hord, rfl⟩ := prune_ok_shape h
  have hsup := dependenciesOf_ok_sup hord
  intro a
  rw [foldl_down_eq, List.mem_filter]
  simp only [Bool.not_eq_eq_eq_not, Bool.not_true, List.any_eq_false,
    List.mem_reverse, List.mem_filter, decide_eq_true_eq, and_congr_right_iff]
  intro _
  constructor
  · intro hall
    rintro ⟨m, hm, hid⟩
    exact hall m ⟨hsup m hm, hm⟩ hid
  · intro hnex m hm hid
    exact hnex ⟨m, hm.2, hid⟩

/-- Unique keys identify rows. -/
theorem nodupKeys_inj {st : TargetState} (hkeys : NodupKeys st)
    {a b : MigrationApplication} (ha : a ∈ st) (hb : b ∈ st)
    (hid : a.id = b.id) : a = b :=
  List.inj_on_of_nodup_map hkeys ha hb hid

/-- C6.  `prune(except=X)` is idempotent: after one successful run, the
    second run's dangling set is empty, so running it again returns the
    same applied-migrations state unchanged. -/
theorem prune_idempotent (g : RepoGraph) (st : TargetState) (X : List Migration)
    (hkeys : NodupKeys st) {st2 : TargetState}
    (hrun : prune g st X = .ok st2) :
    prune g st2 X = .ok st2 ∧ danglingMigrations g st2 X = [] := by
  have hmem := prune_ok_mem hrun
  have hdang2 : danglingMigrations g st2 X = [] := by
    unfold danglingMigrations
    dsimp only
    rw [List.filter_eq_nil_iff]
    intro m hm
    simp only [Bool.not_eq_eq_eq_not, Bool.not_true, decide_eq_false_iff_not]
    intro hnotneeded
    obtain ⟨a, hast2, hfind, -⟩ := installed_mem.mp hm
    have hsome := List.find?_some hfind
    simp only [decide_eq_true_eq] at hsome
    obtain ⟨hast, hkeep⟩ := (hmem a).mp hast2
    by_cases hX : X.length > 0
    · rw [if_pos hX] at hnotneeded
      apply hkeep
      refine ⟨m, ?_, hsome.symm⟩
      unfold danglingMigrations
      rw [if_pos hX]
      dsimp only
      rw [List.mem_filter]
      refine ⟨installed_mem.mpr ⟨a, hast, hfind, by simp⟩, by simp [hnotneeded]⟩
    · rw [if_neg hX] at hnotneeded
      have hadep : a.is_dependency = false := by
        by_contra hcon
        rw [Bool.not_eq_false] at hcon
        have hmdang : m ∈ danglingMigrations g st X := by
          unfold danglingMigrations
          rw [if_neg hX]
          dsimp only
          rw [List.mem_filter]
          refine ⟨installed_mem.mpr ⟨a, hast, hfind, by simp⟩, ?_⟩
          simp only [Bool.not_eq_eq_eq_not, Bool.not_true, decide_eq_false_iff_not]
          intro hneed
          obtain ⟨a2, ha2, hfind2, hc2⟩ := installed_mem.mp hneed
          have hsome2 := List.find?_some hfind2
          simp only [decide_eq_true_eq] at hsome2
          have haa2 : a = a2 :=
            nodupKeys_inj hkeys hast ha2 (hsome.symm.trans hsome2)
          rw [← haa2, hcon] at hc2
          simp at hc2
        exact hkeep ⟨m, hmdang, hsome.symm⟩
      apply hnotneeded
      exact installed_mem.mpr ⟨a, hast2, hfind, by simp [hadep]⟩
  refine ⟨?_, hdang2⟩
  unfold prune
  dsimp only
  rw [hdang2, dependenciesOf_nil]
  rfl

/-- Expanding the empty selection over reverse edges yields the empty
    plan. -/
theorem dependantsOf_nil (g : RepoGraph) : dependantsOf g [] = .ok [] := rfl

/-- Trace and state of `PostgreSqlTarget.down(*migrations)`. -/
theorem targetDownOps_eq :
    ∀ (ms : List Migration) (s : TargetState × List TargetOp),
      targetDownOps s ms =
        (ms.foldl targetDownApply s.1, s.2 ++ ms.map (fun m => TargetOp.down m.id)) := by
  intro ms
  induction ms with
  | nil => intro s; simp [targetDownOps]
  | cons m rest ih =>
    intro s
    unfold targetDownOps at ih ⊢
    rw [List.foldl_cons, ih]
    simp

/-- Trace and state of the re-apply loop of `rerun-modified`. -/
theorem targetUpOps_foldl_eq (now : Nat) (user : String) :
    ∀ (l : List (Migration × MigrationApplication)) (s : TargetState × List TargetOp),
      l.foldl (fun s p => targetUpOps s p.1 p.2.is_dependency now user) s =
        (l.foldl (fun st p => targetUpApply st p.1 p.2.is_dependency now user) s.1,
         s.2 ++ l.map (fun p => TargetOp.up p.1.id p.2.is_dependency)) := by
  intro l
  induction l with
  | nil => intro s; simp
  | cons p rest ih =>
    intro s
    rw [List.foldl_cons, List.foldl_cons, ih]
    unfold targetUpOps
    simp

/-- The re-apply loop leaves keys outside the list untouched. -/
theorem foldl_up_frame (now : Nat) (user : String) :
    ∀ (l : List (Migration × MigrationApplication)) (st : TargetState)
      (id : CompositeId), (∀ p ∈ l, id ≠ p.1.id) →
      lookupApplication
        (l.foldl (fun st p => targetUpApply st p.1 p.2.is_dependency now user) st) id =
        lookupApplication st id := by
  intro l
  induction l with
  | nil => intro st id _; rfl
  | cons p rest ih =>
    intro st id hid
    rw [List.foldl_cons]
    rw [ih _ id (fun q hq => hid q (List.mem_cons_of_mem _ hq))]
    exact targetUp_lookup_other st p.1 _ now user (hid p (List.mem_cons_self _ _))

/-- After the re-apply loop, each pair's migration is stored with its prior
    dependency flag and its current hashes. -/
theorem foldl_up_lookup (now : Nat) (user : String) :
    ∀ (l : List (Migration × MigrationApplication)) (st : TargetState),
      (l.map (fun p => p.1.id)).Nodup →
      ∀ p ∈ l, ∃ r,
        lookupApplication
          (l.foldl (fun st p => targetUpApply st p.1 p.2.is_dependency now user) st)
          p.1.id = some r ∧
        r.is_dependency = p.2.is_dependency ∧
        r.up_script_sha256 = p.1.up_script_sha256 ∧
        r.reformatted_up_script_sha256 = some p.1.reformatted_up_script_sha256 := by
  intro l
  induction l with
  | nil => intro st _ p hp; cases hp
  | cons p0 rest ih =>
    intro st hnd p hp
    simp only [List.map_cons, List.nodup_cons] at hnd
    rw [List.foldl_cons]
    rcases List.mem_cons.mp hp with rfl | hprest
    · have hframe := foldl_up_frame now user rest
        (targetUpApply st p.1 p.2.is_dependency now user) p.1.id
        (fun q hq hcon =>
          hnd.1 (hcon ▸ List.mem_map_of_mem (fun p2 => p2.1.id) hq))
      rw [hframe]
      obtain ⟨r, hr, h1, h2, h3⟩ :=
        targetUp_lookup_self st p.1 p.2.is_dependency now user
      exact ⟨r, hr, h3, h1, h2⟩
    · exact ih _ hnd.2 p hprest

/-- The migrations of the applied dependants pairs are the plan elements
    with a current application. -/
theorem withDeps_map_fst (st : TargetState) :
    ∀ order : List Migration,
      (order.filterMap
        (fun m => (lookupApplication st m.id).map (fun a => (m, a)))).map Prod.fst =
      order.filter (fun m => (lookupApplication st m.id).isSome) := by
  intro order
  induction order with
  | nil => rfl
  | cons m rest ih =>
    rw [List.filterMap_cons, List.filter_cons]
    match hl : lookupApplication st m.id with
    | some a => simp [ih]
    | none => simp [ih]

/-- Each applied dependants pair couples a plan element with its current
    application record. -/
theorem withDeps_mem {st : TargetState} {order : List Migration}
    {p : Migration × MigrationApplication}
    (hp : p ∈ order.filterMap
      (fun m => (lookupApplication st m.id).map (fun a => (m, a)))) :
    p.1 ∈ order ∧ lookupApplication st p.1.id = some p.2 := by
  obtain ⟨m, hm, hF⟩ := List.mem_filterMap.mp hp
  match hl : lookupApplication st m.id with
  | some a =>
    rw [hl] at hF
    simp only [Option.map_some', Option.some.injEq] at hF
    subst hF
    exact ⟨hm, hl⟩
  | none => rw [hl] at hF; cases hF

/-- Migrations reported as modified exist in the loaded closure. -/
theorem modified_sub {g : RepoGraph} {st : TargetState} :
    ∀ m ∈ modifiedMigrations g st, m ∈ g.migrations := by
  intro m hm
  unfold modifiedMigrations withMigrations at hm
  obtain ⟨p, hp, hF⟩ := List.mem_filterMap.mp hm
  obtain ⟨a, _, rfl⟩ := List.mem_map.mp hp
  match hfind : g.migrations.find? (fun m2 => decide (m2.id = a.id)) with
  | some m2 =>
    rw [hfind] at hF
    dsimp only at hF
    by_cases hc : (!(a.matches m2)) = true
    · rw [if_pos hc] at hF
      cases hF
      exact List.mem_of_find?_eq_some hfind
    · rw [if_neg hc] at hF
      cases hF
  | none => rw [hfind] at hF; cases hF

/-- The modified set the `rerun-modified` command acts on stays in the
    loaded closure. -/
theorem rerunSelection_sub {g : RepoGraph} {st : TargetState}
    {selection : List Migration} :
    ∀ m ∈ rerunSelection g st selection, m ∈ g.migrations := by
  intro m hm
  unfold rerunSelection at hm
  by_cases hs : selection.length > 0
  · rw [if_pos hs] at hm
    exact modified_sub m (List.mem_of_mem_filter hm)
  · rw [if_neg hs] at hm
    exact modified_sub m hm

/-- C7.  A successful `rerun-modified` run computes the applied dependants
    pairs `with_dependants` from `dependants_of` of the modified set, emits
    a revert of every element in that sequence order followed by a re-apply
    of exactly those elements in reverse order, and stores each re-applied
    element with its current hashes and the `is_dependency` flag of its
    prior application record. -/
theorem rerun_modified_trace_and_flags (g : RepoGraph) (st : TargetState)
    (selection : List Migration) (now : Nat) (user : String)
    (st2 : TargetState) (tr : List TargetOp)
    (hrc : DependantsClosed g) (hinj : IdsInjective g)
    (hrun : rerunModified g st selection now user = .ok (st2, tr)) :
    ∃ order wd,
      dependantsOf g (rerunSelection g st selection) = .ok order ∧
      wd = order.filterMap
        (fun m => (lookupApplication st m.id).map (fun a => (m, a))) ∧
      (∀ p ∈ wd, lookupApplication st p.1.id = some p.2) ∧
      tr = wd.map (fun p => TargetOp.down p.1.id) ++
        wd.reverse.map (fun p => TargetOp.up p.1.id p.2.is_dependency) ∧
      (∀ p ∈ wd, ∃ r, lookupApplication st2 p.1.id = some r ∧
        r.is_dependency = p.2.is_dependency ∧
        r.up_script_sha256 = p.1.up_script_sha256 ∧
        r.reformatted_up_script_sha256 = some p.1.reformatted_up_script_sha256) := by
  unfold rerunModified at hrun
  by_cases hlen : (rerunSelection g st selection).length = 0
  · rw [if_pos hlen] at hrun
    simp only [Except.ok.injEq, Prod.mk.injEq] at hrun
    obtain ⟨rfl, rfl⟩ := hrun
    have hsel : rerunSelection g st selection = [] := List.length_eq_zero.mp hlen
    refine ⟨[], [], ?_, rfl, ?_, rfl, ?_⟩
    · rw [hsel]
      exact dependantsOf_nil g
    · intro p hp; cases hp
    · intro p hp; cases hp
  · rw [if_neg hlen] at hrun
    match hord : dependantsOf g (rerunSelection g st selection) with
    | .error e => rw [hord] at hrun; cases hrun
    | .ok order =>
      rw [hord] at hrun
      dsimp only at hrun
      simp only [Except.ok.injEq] at hrun
      unfold rerunTransaction at hrun
      rw [targetDownOps_eq, targetUpOps_foldl_eq] at hrun
      dsimp only at hrun
      rw [Prod.mk.injEq] at hrun
      obtain ⟨hst2, htr⟩ := hrun
      refine ⟨order, _, rfl, rfl, ?_, ?_, ?_⟩
      · intro p hp
        exact (withDeps_mem hp).2
      · rw [← htr]
        rw [List.map_map]
        simp only [List.nil_append]
        rfl
      · have hordnd := dependantsOf_ok_nodup hord
        have horduniv := dependantsOf_ok_univ hrc rerunSelection_sub hord
        have hfst := withDeps_map_fst st order
        have hfstnd : ((order.filterMap
            (fun m => (lookupApplication st m.id).map (fun a => (m, a)))).map
              Prod.fst).Nodup := by
          rw [hfst]
          exact hordnd.filter _
        have hids : ((order.filterMap
            (fun m => (lookupApplication st m.id).map (fun a => (m, a)))).map
              (fun p => p.1.id)).Nodup := by
          have hcomp : ((order.filterMap
              (fun m => (lookupApplication st m.id).map (fun a => (m, a)))).map
                (fun p => p.1.id)) =
              ((order.filterMap
                (fun m => (lookupApplication st m.id).map (fun a => (m, a)))).map
                  Prod.fst).map Migration.id := by
            rw [List.map_map]
            rfl
          rw [hcomp]
          refine hfstnd.map_on ?_
          intro x hx y hy hxy
          rw [hfst] at hx hy
          exact hinj x (horduniv x (List.mem_of_mem_filter hx)) y
            (horduniv y (List.mem_of_mem_filter hy)) hxy
        intro p hp
        have hprev : p ∈ (order.filterMap
            (fun m => (lookupApplication st m.id).map (fun a => (m, a)))).reverse :=
          List.mem_reverse.mpr hp
        have hidsrev : (((order.filterMap
            (fun m => (lookupApplication st m.id).map (fun a => (m, a)))).reverse).map
              (fun p => p.1.id)).Nodup := by
          rw [List.map_reverse]
          exact List.nodup_reverse.mpr hids
        obtain ⟨r, hr, h1, h2, h3⟩ := foldl_up_lookup now user _ _ hidsrev p hprev
        rw [← hst2]
        exact ⟨r, hr, h1, h2, h3⟩

/-- C3 (witness): `up c` on the empty target applies `a`, `b` as
    dependencies and `c` explicitly. -/
theorem up_command_applies_plan_witness :
    ∃ plan, dependenciesOf gW [wC] = .ok plan ∧
      ∀ m ∈ plan,
        countKey [⟨"main", "a", "ha", some "ca", true, 5, "u"⟩,
          ⟨"main", "b", "hb", some "cb", true, 5, "u"⟩,
          ⟨"main", "c", "hc", some "cc", false, 5, "u"⟩] m.id = 1 ∧
        ∃ r, lookupApplication [⟨"main", "a", "ha", some "ca", true, 5, "u"⟩,
            ⟨"main", "b", "hb", some "cb", true, 5, "u"⟩,
            ⟨"main", "c", "hc", some "cc", false, 5, "u"⟩] m.id = some r ∧
          r.up_script_sha256 = m.up_script_sha256 ∧
          r.reformatted_up_script_sha256 = some m.reformatted_up_script_sha256 ∧
          (r.is_dependency = false ↔
            ((m ∈ [wC] ∨ ∃ a, lookupApplication [] m.id = some a ∧
                a.is_dependency = false) ∧
              ¬(false = true ∧ m ∈ [wC]))) :=
  up_command_applies_plan gW [] [wC] false (fun _ => true) 5 "u"
    [⟨"main", "a", "ha", some "ca", true, 5, "u"⟩,
      ⟨"main", "b", "hb", some "cb", true, 5, "u"⟩,
      ⟨"main", "c", "hc", some "cc", false, 5, "u"⟩]
    (by unfold DepsClosed; decide) (by unfold IdsInjective; decide)
    (by unfold NodupKeys; decide) (by decide) (by rfl)

/-- C6 (witness): pruning a state holding one dependency-installed
    migration with no exceptions empties it, and pruning again is a
    no-op. -/
theorem prune_idempotent_witness :
    prune gW [] [] = .ok [] ∧ danglingMigrations gW [] [] = [] :=
  @prune_idempotent gW [rowADep] [] (by unfold NodupKeys; decide) [] (by rfl)

/-- C7 (witness): with `b` modified and `c` its applied dependant, the
    transaction reverts `c` then `b` and re-applies `b` then `c`, keeping
    the prior dependency flags. -/
theorem rerun_modified_trace_and_flags_witness :
    ∃ order wd,
      dependantsOf gW (rerunSelection gW [rowBOld, rowCCur] []) = .ok order ∧
      wd = order.filterMap
        (fun m => (lookupApplication [rowBOld, rowCCur] m.id).map (fun a => (m, a))) ∧
      (∀ p ∈ wd, lookupApplication [rowBOld, rowCCur] p.1.id = some p.2) ∧
      ([TargetOp.down ⟨"main", "c"⟩, TargetOp.down ⟨"main", "b"⟩,
        TargetOp.up ⟨"main", "b"⟩ true, TargetOp.up ⟨"main", "c"⟩ false] : List TargetOp) =
        wd.map (fun p => TargetOp.down p.1.id) ++
          wd.reverse.map (fun p => TargetOp.up p.1.id p.2.is_dependency) ∧
      (∀ p ∈ wd, ∃ r,
        lookupApplication [⟨"main", "b", "hb", some "cb", true, 7, "u"⟩,
          ⟨"main", "c", "hc", some "cc", false, 7, "u"⟩] p.1.id = some r ∧
        r.is_dependency = p.2.is_dependency ∧
        r.up_script_sha256 = p.1.up_script_sha256 ∧
        r.reformatted_up_script_sha256 = some p.1.reformatted_up_script_sha256) :=
  rerun_modified_trace_and_flags gW [rowBOld, rowCCur] [] 7 "u"
    [⟨"main", "b", "hb", some "cb", true, 7, "u"⟩,
      ⟨"main", "c", "hc", some "cc", false, 7, "u"⟩]
    [TargetOp.down ⟨"main", "c"⟩, TargetOp.down ⟨"main", "b"⟩,
      TargetOp.up ⟨"main", "b"⟩ true, TargetOp.up ⟨"main", "c"⟩ false]
    (by unfold DependantsClosed; decide) (by unfold IdsInjective; decide)
    (by rfl)
